import Mathlib

/-!
# Verification of the clipod job pipeline and status engine

A shallow embedding, in Lean 4, of the core of the `clipod` repository:

* the time codec (`time_to_seconds`, `seconds_to_srt_time` in
  `backend/app/worker/processor.py`),
* the SRT subtitle-segment extractor (`extract_srt_segment`, same file),
* the job status store (`StatusManager` in
  `backend/app/utils/status_manager.py`),
* the pipeline orchestrator (`process_youtube_video` in
  `backend/app/worker/processor.py`), modelled as the sequence of store
  operations it issues, with each external stage (download, transcription,
  highlight selection, clip rendering) abstracted as an `Except` outcome.

Python strings are modelled as `List Char` (`Str`), Python floats as `ℚ`
(the arithmetic performed by the code is exact decimal arithmetic on the
values that occur), and a Python function that may raise `ValueError`
returns `Option` (`Option.none` = an exception escapes).
-/

namespace Clipod

/-- Python strings, modelled as lists of characters. -/
abbrev Str := List Char

/-! ## Characters and digit strings -/

/-- The characters matched by `\s` in a Python regex / stripped by
`str.strip()` (ASCII fragment). -/
def isPySpace (c : Char) : Bool :=
  c = ' ' || c = '\t' || c = '\n' || c = '\r' || c = Char.ofNat 11 || c = Char.ofNat 12

/-- The character for a decimal digit value `d < 10`. -/
def digitCharM (d : ℕ) : Char := Char.ofNat (48 + d)

/-- Numeric value of a decimal digit character. -/
def digitVal (c : Char) : ℕ := c.toNat - 48

/-- Value of a string of decimal digits (most significant first). -/
def digitsVal (l : Str) : ℕ := l.foldl (fun a c => 10 * a + digitVal c) 0

/-- `l` is a nonempty string of decimal digits. -/
def digitsNE (l : Str) : Bool := !l.isEmpty && l.all Char.isDigit

/-- Decimal representation of `n`, with explicit fuel so that the
definition is structural (the fuel `n + 1` always suffices). -/
def natToStrAux : ℕ → ℕ → Str
  | 0, _ => []
  | fuel + 1, n =>
    if n < 10 then [digitCharM n]
    else natToStrAux fuel (n / 10) ++ [digitCharM (n % 10)]

/-- Decimal representation of a natural number (Python `str`/`%d`). -/
def natToStr (n : ℕ) : Str := natToStrAux (n + 1) n

/-- Left-pad with `'0'` to width `w` (Python `{:0wd}` on a nonnegative
integer). -/
def padZeros (w : ℕ) (l : Str) : Str := List.replicate (w - l.length) '0' ++ l

/-- Python `f"{i:0wd}"`: zero-padded to total width `w`, the sign counted
in the width. -/
def pyFmtD (w : ℕ) (i : ℤ) : Str :=
  if i < 0 then '-' :: padZeros (w - 1) (natToStr (-i).toNat)
  else padZeros w (natToStr i.toNat)

/-! ## Python `int()` and `float()` on strings

`pyInt` models `int(s)` and `pyFloat` models `float(s)` on the string
forms this code base produces and consumes: optional surrounding
whitespace, an optional sign, and a decimal literal (for `float`: with an
optional fractional part and an optional decimal exponent).  `none` means
`ValueError`.  (`float` also accepts `inf`/`nan`, which denote values
outside `ℚ` and never arise here.) -/

/-- Strip leading and trailing whitespace (Python `str.strip()` as done by
`int`/`float`). -/
def stripWs (l : Str) : Str :=
  ((l.dropWhile isPySpace).reverse.dropWhile isPySpace).reverse

/-- Parse a nonempty all-digit string, else fail. -/
def digitsValNE (l : Str) : Option ℕ :=
  if digitsNE l then some (digitsVal l) else Option.none

/-- The body of `int(s)` after stripping: optional sign, then digits. -/
def pySignedDigits : Str → Option ℤ
  | [] => Option.none
  | c :: rest =>
    if c = '-' then (digitsValNE rest).map (fun n => -(n : ℤ))
    else if c = '+' then (digitsValNE rest).map (fun n => (n : ℤ))
    else (digitsValNE (c :: rest)).map (fun n => (n : ℤ))

/-- Python `int(s)`. -/
def pyInt (l : Str) : Option ℤ := pySignedDigits (stripWs l)

/-- Optional decimal exponent suffix (`e±ddd`) applied to a mantissa. -/
def applyExp (m : ℚ) (l : Str) : Option ℚ :=
  match l with
  | [] => some m
  | c :: rest =>
    if c = 'e' || c = 'E' then
      match rest with
      | '-' :: ds => (digitsValNE ds).map (fun k => m * (10 : ℚ) ^ (-(k : ℤ)))
      | '+' :: ds => (digitsValNE ds).map (fun k => m * (10 : ℚ) ^ (k : ℤ))
      | ds => (digitsValNE ds).map (fun k => m * (10 : ℚ) ^ (k : ℤ))
    else Option.none

/-- Unsigned part of `float(s)`: `ddd`, `ddd.`, `ddd.ddd` or `.ddd`,
optionally followed by an exponent. -/
def pyFloatMag (l : Str) : Option ℚ :=
  let intPart := l.takeWhile Char.isDigit
  let r1 := l.dropWhile Char.isDigit
  match r1 with
  | '.' :: r2 =>
    let fracPart := r2.takeWhile Char.isDigit
    let r3 := r2.dropWhile Char.isDigit
    if intPart.isEmpty && fracPart.isEmpty then Option.none
    else applyExp ((digitsVal intPart : ℚ)
      + (digitsVal fracPart : ℚ) / (10 : ℚ) ^ fracPart.length) r3
  | _ =>
    if intPart.isEmpty then Option.none
    else applyExp (digitsVal intPart : ℚ) r1

/-- The body of `float(s)` after stripping: optional sign, then magnitude. -/
def pySignedFloat : Str → Option ℚ
  | [] => Option.none
  | c :: rest =>
    if c = '-' then (pyFloatMag rest).map Neg.neg
    else if c = '+' then pyFloatMag rest
    else pyFloatMag (c :: rest)

/-- Python `float(s)`. -/
def pyFloat (l : Str) : Option ℚ := pySignedFloat (stripWs l)

/-! ## Python string helpers used by the time codec -/

/-- Python `s.split(sep)` for a single-character separator: splits on every
occurrence and keeps empty pieces (`"".split(':') == ['']`). -/
def splitChar (sep : Char) : Str → List Str
  | [] => [[]]
  | c :: rest =>
    if c = sep then [] :: splitChar sep rest
    else
      match splitChar sep rest with
      | r :: rs => (c :: r) :: rs
      | [] => [[c]]

/-- Python `s.replace(',', '.')`. -/
def replaceComma (l : Str) : Str := l.map (fun c => if c = ',' then '.' else c)

/-! ## The time codec (`processor.py`, `time_to_seconds` /
`seconds_to_srt_time`) -/

/-- `time_to_seconds(time_str)` (`processor.py` lines 656-672).
`Option.none` models a `ValueError` escaping: the `try`/`except` in the
source covers only the final bare-number branch, so a malformed component
in a 2- or 3-part colon-separated string raises. -/
def time_to_seconds (time_str : Str) : Option ℚ :=
  match splitChar ':' (replaceComma time_str) with
  | [hours, minutes, seconds] => do
    let h ← pyInt hours
    let m ← pyInt minutes
    let s ← pyFloat seconds
    pure ((h : ℚ) * 3600 + (m : ℚ) * 60 + s)
  | [minutes, seconds] => do
    let m ← pyInt minutes
    let s ← pyFloat seconds
    pure ((m : ℚ) * 60 + s)
  | _ =>
    match pyFloat time_str with
    | some v => some v
    | Option.none => some 0

/-- Python `int()` applied to a float: truncation toward zero. -/
def truncQ (q : ℚ) : ℤ := if 0 ≤ q then ⌊q⌋ else ⌈q⌉

/-- Python float `//` (floor division), as an exact rational. -/
def qfdiv (a b : ℚ) : ℚ := ((⌊a / b⌋ : ℤ) : ℚ)

/-- Python float `%`: `a - b * (a // b)`. -/
def qfmod (a b : ℚ) : ℚ := a - b * qfdiv a b

/-- `seconds_to_srt_time(seconds)` (`processor.py` lines 674-683):
`HH:MM:SS,mmm` with zero padding and milliseconds truncated. -/
def seconds_to_srt_time (seconds : ℚ) : Str :=
  let hours : ℤ := truncQ (qfdiv seconds 3600)
  let minutes : ℤ := truncQ (qfdiv (qfmod seconds 3600) 60)
  let s : ℚ := qfmod seconds 60
  let si : ℤ := truncQ s
  let milliseconds : ℤ := truncQ ((s - (si : ℚ)) * 1000)
  pyFmtD 2 hours ++ ':' :: pyFmtD 2 minutes ++ ':' :: pyFmtD 2 si
    ++ ',' :: pyFmtD 3 milliseconds

/-- A number token of a valid time string: one or more digits, optionally
followed by a fraction whose separator is a period or a comma (the
caption-file convention the codec accepts). -/
def numTok (l : Str) : Bool :=
  match l.dropWhile Char.isDigit with
  | [] => digitsNE (l.takeWhile Char.isDigit)
  | c :: rest =>
    digitsNE (l.takeWhile Char.isDigit) && (c = '.' || c = ',') && digitsNE rest

/-- A valid time string in one of the three supported formats:
`HH:MM:SS[.fraction]`, `MM:SS[.fraction]`, or a bare number of seconds,
with a comma accepted as fraction separator. -/
def validTimeB (t : Str) : Bool :=
  match splitChar ':' t with
  | [a, b, c] => digitsNE a && digitsNE b && numTok c
  | [b, c] => digitsNE b && numTok c
  | [c] => numTok c
  | _ => false

/-- Modelled from the spec: the moment denoted by a valid time string.
The spec (§4.1) says a comma fraction separator "is normalized to a
period before parsing", so the denoted moment is the parse of the
comma-normalized string.  The code normalizes only for the split and the
2- and 3-part branches; its bare-number branch applies `float()` to the
original string, which is where it diverges from this. -/
def denotedMoment (t : Str) : Option ℚ := time_to_seconds (replaceComma t)

/-! ## The subtitle segment extractor (`processor.py`, `extract_srt_segment`)

The source reads the SRT file, splits it into blocks on blank lines, and
splits each block into lines.  The embedding starts from that block/line
structure: a caption track is a `List (List Str)` (blocks of lines). -/

/-- Greedy `\d+`: at least one digit, maximal munch.  (In the pattern
below a `\d+` is never followed by a digit, so greedy matching with
backtracking and maximal munch agree.) -/
def takeDigits1 (l : Str) : Option (Str × Str) :=
  if (l.takeWhile Char.isDigit).isEmpty then Option.none
  else some (l.takeWhile Char.isDigit, l.dropWhile Char.isDigit)

/-- Expect the literal character `c`. -/
def expectChar (c : Char) (l : Str) : Option Str :=
  match l with
  | [] => Option.none
  | x :: rest => if x = c then some rest else Option.none

/-- One timestamp `\d+:\d+:\d+,\d+`, returning the matched text and the
rest of the line. -/
def matchTimestamp (l : Str) : Option (Str × Str) := do
  let (d1, r1) ← takeDigits1 l
  let r2 ← expectChar ':' r1
  let (d2, r3) ← takeDigits1 r2
  let r4 ← expectChar ':' r3
  let (d3, r5) ← takeDigits1 r4
  let r6 ← expectChar ',' r5
  let (d4, r7) ← takeDigits1 r6
  pure (d1 ++ ':' :: d2 ++ ':' :: d3 ++ ',' :: d4, r7)

/-- `re.match(r'(\d+:\d+:\d+,\d+)\s*-->\s*(\d+:\d+:\d+,\d+)', line)`:
anchored at the start of the line, trailing text ignored; returns the two
captured timestamps. -/
def timeLineMatch (l : Str) : Option (Str × Str) := do
  let (g1, r1) ← matchTimestamp l
  let r2 := r1.dropWhile isPySpace
  let r3 ← expectChar '-' r2
  let r4 ← expectChar '-' r3
  let r5 ← expectChar '>' r4
  let r6 := r5.dropWhile isPySpace
  let (g2, _) ← matchTimestamp r6
  pure (g1, g2)

/-- One re-timed, re-numbered output cue of the extractor. -/
structure SrtCue where
  idx : ℕ
  cueStart : ℚ
  cueEnd : ℚ
  text : List Str
  deriving Repr, DecidableEq

/-- The data a well-formed source block contributes before the window
test: its parsed start/end times (in seconds) and its text lines
(`lines[2:]`).  `Option.none` covers blocks with fewer than 3 lines,
blocks whose second line does not match the time-range pattern, and the
(unreachable, see `time_to_seconds_matchTimestamp`) case of
`time_to_seconds` failing on a matched timestamp. -/
def parseBlockTimes : List Str → Option (ℚ × ℚ × List Str)
  | _ :: l1 :: t0 :: ts =>
    match timeLineMatch l1 with
    | some (g1, g2) =>
      match time_to_seconds (replaceComma g1), time_to_seconds (replaceComma g2) with
      | some ss, some se => some (ss, se, t0 :: ts)
      | _, _ => Option.none
    | Option.none => Option.none
  | _ => Option.none

/-- The loop of `extract_srt_segment` (`processor.py` lines 611-641) over
the subtitle blocks, carrying `new_index`.  The result is `Option.none`
exactly when an exception would escape the loop (only a `time_to_seconds`
failure could do that, and it never happens — `extractLoop_ne_none`). -/
def extractLoop (startS endS : ℚ) : List (List Str) → ℕ → Option (List SrtCue)
  | [], _ => some []
  | lines :: rest, newIndex =>
    match lines with
    | _ :: l1 :: t0 :: ts =>
      match timeLineMatch l1 with
      | some (g1, g2) =>
        match time_to_seconds (replaceComma g1), time_to_seconds (replaceComma g2) with
        | some subStart, some subEnd =>
          if subEnd < startS ∨ subStart > endS then
            extractLoop startS endS rest newIndex
          else do
            let cues ← extractLoop startS endS rest (newIndex + 1)
            pure ({ idx := newIndex,
                    cueStart := max 0 (subStart - startS),
                    cueEnd := min (endS - startS) (subEnd - startS),
                    text := t0 :: ts } :: cues)
        | _, _ => Option.none
      | Option.none => extractLoop startS endS rest newIndex
    | _ => extractLoop startS endS rest newIndex

/-- `extract_srt_segment(srt, start_seconds, end_seconds, out)`: the list
of re-timed, re-numbered cues written to the output file.  The
`try`/`except` of the source turns any escaping exception into an empty
output file, hence `getD []`. -/
def extract_srt_segment (blocks : List (List Str)) (start_seconds end_seconds : ℚ) :
    List SrtCue :=
  (extractLoop start_seconds end_seconds blocks 1).getD []

/-- Serialization of one output cue
(`f"{new_index}\n{new_start_str} --> {new_end_str}\n"` + the text lines). -/
def renderCue (c : SrtCue) : Str :=
  natToStr c.idx ++ '\n' :: seconds_to_srt_time c.cueStart
    ++ ' ' :: '-' :: '-' :: '>' :: ' ' :: seconds_to_srt_time c.cueEnd
    ++ '\n' :: (c.text.intersperse ['\n']).flatten

/-- The text written to the output SRT file: `'\n\n'.join(relevant_blocks)`. -/
def renderSrt (cues : List SrtCue) : Str :=
  ((cues.map renderCue).intersperse ['\n', '\n']).flatten

/-- The window test of the extractor, on a parsed cue `(start, end, text)`:
keep unless `sub_end < start_seconds or sub_start > end_seconds`
(`processor.py` line 627) — a boundary-inclusive overlap test. -/
def keepCue (start_seconds end_seconds : ℚ) (c : ℚ × ℚ × List Str) : Bool :=
  !(decide (c.2.1 < start_seconds) || decide (c.1 > end_seconds))

/-- The re-timing of a kept cue (`processor.py` lines 631-632):
`adjusted_start = max(0, sub_start - start_seconds)`,
`adjusted_end = min(end_seconds - start_seconds, sub_end - start_seconds)`. -/
def adjustCue (start_seconds end_seconds : ℚ) (c : ℚ × ℚ × List Str) :
    ℚ × ℚ × List Str :=
  (max 0 (c.1 - start_seconds),
   min (end_seconds - start_seconds) (c.2.1 - start_seconds), c.2.2)

/-- The parsed cues of the track that survive the window test, re-timed,
in source order. -/
def selectedCues (blocks : List (List Str)) (start_seconds end_seconds : ℚ) :
    List (ℚ × ℚ × List Str) :=
  ((blocks.filterMap parseBlockTimes).filter (keepCue start_seconds end_seconds)).map
    (adjustCue start_seconds end_seconds)

/-- Re-number a list of re-timed cues sequentially starting at `n`. -/
def numberFrom : ℕ → List (ℚ × ℚ × List Str) → List SrtCue
  | _, [] => []
  | n, c :: rest => ⟨n, c.1, c.2.1, c.2.2⟩ :: numberFrom (n + 1) rest

/-- A concrete well-formed cue block (`"1\n0:0:1,5 --> 0:0:2,5\nhi"`,
i.e. the cue `[1.5, 2.5]`), used to instantiate the extractor theorems. -/
def sampleBlock : List Str :=
  [['1'],
   ['0', ':', '0', ':', '1', ',', '5', ' ', '-', '-', '>', ' ',
    '0', ':', '0', ':', '2', ',', '5'],
   ['h', 'i']]

/-- The one-block caption track made of `sampleBlock`. -/
def sampleTrack : List (List Str) := [sampleBlock]

/-! ## The job status store (`status_manager.py`, `StatusManager`)

A job record is a Python dict from field names to values; the store maps
job ids to records.  Both are modelled as association lists with the
insertion-order/unique-key discipline of Python dicts: assignment replaces
the value of an existing key in place and appends a new key at the end.
`time.time()` is modelled by an explicit `now : ℚ` argument.  All store
methods run under the manager's single lock in the source; here they are
the corresponding atomic state transformers. -/

/-- Values stored in a job record. -/
inductive PyVal where
  | str (s : String)
  | num (q : ℚ)
  | noneV
  | listV (l : List PyVal)
  deriving Repr

/-- Dict lookup (`d[k]` / `d.get(k)`). -/
def lookupKey {α : Type} : List (String × α) → String → Option α
  | [], _ => Option.none
  | (k, v) :: rest, key => if k = key then some v else lookupKey rest key

/-- Dict membership (`k in d`). -/
def hasKey {α : Type} (d : List (String × α)) (key : String) : Bool :=
  (lookupKey d key).isSome

/-- Dict assignment (`d[k] = v`): replace in place if present, else append. -/
def setKey {α : Type} : List (String × α) → String → α → List (String × α)
  | [], key, v => [(key, v)]
  | (k, w) :: rest, key, v =>
    if k = key then (k, v) :: rest else (k, w) :: setKey rest key v

/-- A job record. -/
abbrev JobRec := List (String × PyVal)

/-- The `StatusManager.jobs` map. -/
abbrev Store := List (String × JobRec)

/-- The fresh record built by `create_job` (`status_manager.py` lines
22-33). -/
def defaultJob (job_id : String) (now : ℚ) : JobRec :=
  [("job_id", PyVal.str job_id),
   ("status", PyVal.str "initializing"),
   ("current_step", PyVal.str "starting"),
   ("progress", PyVal.num 0),
   ("message", PyVal.str "Job initialized"),
   ("error", PyVal.noneV),
   ("clips", PyVal.listV []),
   ("start_time", PyVal.num now),
   ("update_time", PyVal.num now)]

/-- `create_job(job_id)` (`status_manager.py` lines 18-34): unconditional
assignment `self.jobs[job_id] = {...}` — there is no existence check. -/
def create_job (sm : Store) (job_id : String) (now : ℚ) : Store :=
  setKey sm job_id (defaultJob job_id now)

/-- The `for key, value in kwargs.items(): if key in job: job[key] = value`
loop of `update_status`. -/
def applyKwargs (job : JobRec) : List (String × PyVal) → JobRec
  | [] => job
  | (k, v) :: rest => applyKwargs (if hasKey job k then setKey job k v else job) rest

/-- `update_status(job_id, **kwargs)` (`status_manager.py` lines 36-51):
a no-op when the id is unknown; otherwise merges the supplied keys that
already exist in the record and refreshes `update_time`. -/
def update_status (sm : Store) (job_id : String) (kwargs : List (String × PyVal))
    (now : ℚ) : Store :=
  match lookupKey sm job_id with
  | Option.none => sm
  | some job =>
    setKey sm job_id (setKey (applyKwargs job kwargs) "update_time" (PyVal.num now))

/-- `add_clip(job_id, clip_info)` (`status_manager.py` lines 53-67): a
no-op when the id is unknown; otherwise appends to the `clips` list,
creating it if absent.  (The final fallback arm corresponds to `.append`
on a non-list value, a type error the store never produces.) -/
def add_clip (sm : Store) (job_id : String) (clip_info : PyVal) : Store :=
  match lookupKey sm job_id with
  | Option.none => sm
  | some job =>
    let job1 := if hasKey job "clips" then job else setKey job "clips" (PyVal.listV [])
    match lookupKey job1 "clips" with
    | some (PyVal.listV l) => setKey sm job_id (setKey job1 "clips" (PyVal.listV (l ++ [clip_info])))
    | _ => setKey sm job_id job1

/-- `mark_completed(job_id)` (`status_manager.py` lines 86-97).  Note the
source sets `current_step` to `"finished"`, not `"completed"`; the
orchestrator never calls it. -/
def mark_completed (sm : Store) (job_id : String) (now : ℚ) : Store :=
  update_status sm job_id
    [("status", PyVal.str "completed"),
     ("current_step", PyVal.str "finished"),
     ("progress", PyVal.num 100),
     ("message", PyVal.str "Processing completed successfully")] now

/-- `mark_failed(job_id, error_message)` (`status_manager.py` lines
99-109). -/
def mark_failed (sm : Store) (job_id : String) (error_message : String) (now : ℚ) :
    Store :=
  update_status sm job_id
    [("status", PyVal.str "failed"),
     ("message", PyVal.str ("Processing failed: " ++ error_message)),
     ("error", PyVal.str error_message)] now

/-! ## The pipeline orchestrator (`processor.py`, `process_youtube_video`)

The orchestrator's only interaction with shared state is the sequence of
`StatusManager` calls it issues; each external stage (download,
transcription, highlight selection, clip generation) is delegated and
either yields a result or raises, which the stage's `except` block
translates into one failing status update followed by `return`.  The
embedding therefore represents a run as the list of store operations
issued, parameterized by the four stage outcomes.  The orchestrator's
outermost `except` (which would set `current_step` to `"processing"`) and
the `handle_task_result` callback in `main.py` only fire if a
`StatusManager` call itself raises; the store operations are total, so
those handlers are unreachable and issue no operation in any run. -/

/-- One call to the status store. -/
inductive StoreOp where
  | updateStatus (job_id : String) (kwargs : List (String × PyVal))
  | addClip (job_id : String) (clip_info : PyVal)
  | saveToDisk

/-- A stage-entry update (`processor.py` lines 58, 179, 198, 217). -/
def stageEntry (job_id step : String) (progress : ℚ) (message : String) : StoreOp :=
  StoreOp.updateStatus job_id
    [("status", PyVal.str "processing"),
     ("current_step", PyVal.str step),
     ("progress", PyVal.num progress),
     ("message", PyVal.str message)]

/-- A stage-failure update (`processor.py` lines 167-174, 186-193,
205-212, 224-231). -/
def stageFail (job_id step : String) (progress : ℚ) (message error : String) : StoreOp :=
  StoreOp.updateStatus job_id
    [("status", PyVal.str "failed"),
     ("current_step", PyVal.str step),
     ("progress", PyVal.num progress),
     ("message", PyVal.str message),
     ("error", PyVal.str error)]

/-- `process_youtube_video(url, job_id, status_manager)` (`processor.py`
lines 48-255), as the sequence of store operations it issues, given the
outcome of each delegated stage (`Except.error e` = the stage raised with
message `e`). -/
def process_youtube_video (job_id : String)
    (download transcribe analyze : Except String Unit)
    (generate : Except String (List PyVal)) : List StoreOp :=
  stageEntry job_id "downloading" 0 "Downloading video" ::
  match download with
  | Except.error e =>
    [stageFail job_id "downloading" 0 "Failed to download video" ("Download error: " ++ e)]
  | Except.ok _ =>
  stageEntry job_id "transcribing" 20 "Transcribing video" ::
  match transcribe with
  | Except.error e =>
    [stageFail job_id "transcribing" 20 "Failed to transcribe video"
      ("Transcription error: " ++ e)]
  | Except.ok _ =>
  stageEntry job_id "analyzing" 40 "Identifying highlights" ::
  match analyze with
  | Except.error e =>
    [stageFail job_id "analyzing" 40 "Failed to identify highlights"
      ("Analysis error: " ++ e)]
  | Except.ok _ =>
  stageEntry job_id "generating_clips" 60 "Generating clips" ::
  match generate with
  | Except.error e =>
    [stageFail job_id "generating_clips" 60 "Failed to generate clips"
      ("Clip generation error: " ++ e)]
  | Except.ok clips =>
    [StoreOp.updateStatus job_id
      [("status", PyVal.str "completed"),
       ("current_step", PyVal.str "completed"),
       ("progress", PyVal.num 100),
       ("message", PyVal.str "Processing completed"),
       ("clips", PyVal.listV clips)]]

/-- Apply one store operation at time `now`.  `save_to_disk` writes the
records out but leaves the in-memory map unchanged. -/
def applyOp (now : ℚ) (sm : Store) : StoreOp → Store
  | StoreOp.updateStatus id kwargs => update_status sm id kwargs now
  | StoreOp.addClip id clip => add_clip sm id clip
  | StoreOp.saveToDisk => sm

/-- The sequence of store states of a run: the initial state followed by
the state after each operation, operation `i` executing at time
`clock i`. -/
def runStates (clock : ℕ → ℚ) : Store → ℕ → List StoreOp → List Store
  | sm, _, [] => [sm]
  | sm, i, op :: ops => sm :: runStates clock (applyOp (clock i) sm op) (i + 1) ops

/-- The `(status, current_step)` pair of a job, as strings. -/
def statusStep (sm : Store) (job_id : String) : String × String :=
  ((match lookupKey sm job_id with
    | some job =>
      match lookupKey job "status" with
      | some (PyVal.str s) => s
      | _ => ""
    | Option.none => ""),
   (match lookupKey sm job_id with
    | some job =>
      match lookupKey job "current_step" with
      | some (PyVal.str s) => s
      | _ => ""
    | Option.none => ""))

/-- The `(status, current_step)` trace of a freshly created job driven by
`process_youtube_video` with the given stage outcomes. -/
def jobTrace (job_id : String) (t0 : ℚ) (clock : ℕ → ℚ)
    (download transcribe analyze : Except String Unit)
    (generate : Except String (List PyVal)) : List (String × String) :=
  (runStates clock (create_job [] job_id t0) 0
    (process_youtube_video job_id download transcribe analyze generate)).map
    (fun sm => statusStep sm job_id)

/-- The consecutive `current_step` values of the pipeline chain
`starting → downloading → transcribing → analyzing → generating_clips →
completed`. -/
abbrev chainNext (a b : String) : Prop :=
  (a = "starting" ∧ b = "downloading") ∨
  (a = "downloading" ∧ b = "transcribing") ∨
  (a = "transcribing" ∧ b = "analyzing") ∨
  (a = "analyzing" ∧ b = "generating_clips") ∨
  (a = "generating_clips" ∧ b = "completed")

/-- The transitions the specification allows between consecutive
`(status, current_step)` observations: the predecessor is non-terminal,
and either the step advances one link along the chain (with status
`processing`, or `completed` exactly at the final link) or the status
becomes `failed` with the step unchanged. -/
abbrev okTransition (a b : String × String) : Prop :=
  (a.1 ≠ "completed" ∧ a.1 ≠ "failed") ∧
  ((chainNext a.2 b.2 ∧ (b.1 = "processing" ∨ (b.1 = "completed" ∧ b.2 = "completed"))) ∨
    (b.1 = "failed" ∧ b.2 = a.2))

/-- Whether a store operation is an `update_status` call. -/
def isUpdateStatus : StoreOp → Bool
  | StoreOp.updateStatus _ _ => true
  | _ => false

/-- The kwarg keys of an `update_status` operation. -/
def opKwargKeys : StoreOp → List String
  | StoreOp.updateStatus _ kwargs => kwargs.map Prod.fst
  | _ => []

/-! # Theorems -/

/-! ## Dictionary lemmas -/

theorem lookupKey_setKey {α : Type} (d : List (String × α)) (k : String) (v : α)
    (key : String) :
    lookupKey (setKey d k v) key = if k = key then some v else lookupKey d key := by
  induction d with
  | nil => simp [setKey, lookupKey]
  | cons p rest ih =>
    obtain ⟨k1, w⟩ := p
    by_cases h1 : k1 = k
    · subst h1
      simp only [setKey, if_pos rfl, lookupKey]
      by_cases h2 : k1 = key <;> simp [h2]
    · simp only [setKey, if_neg h1, lookupKey]
      by_cases h2 : k1 = key
      · subst h2
        have : ¬ k = k1 := fun h => h1 h.symm
        simp [this]
      · simp [h2, ih]

theorem hasKey_setKey {α : Type} (d : List (String × α)) (k : String) (v : α)
    (key : String) :
    hasKey (setKey d k v) key = if k = key then true else hasKey d key := by
  unfold hasKey
  rw [lookupKey_setKey]
  by_cases h : k = key <;> simp [h]

theorem lookupKey_eq_none_of_not_mem {α : Type} (d : List (String × α)) (key : String)
    (h : key ∉ d.map Prod.fst) : lookupKey d key = Option.none := by
  induction d with
  | nil => rfl
  | cons p rest ih =>
    obtain ⟨k1, w⟩ := p
    simp only [List.map_cons, List.mem_cons] at h
    push_neg at h
    have : ¬ k1 = key := fun hk => h.1 (hk ▸ rfl)
    simpa [lookupKey, this] using ih h.2

/-- The effect of the `update_status` kwargs loop on each key, assuming the
kwargs have pairwise distinct keys (Python keyword arguments always do). -/
theorem lookupKey_applyKwargs (job : JobRec) (kwargs : List (String × PyVal))
    (key : String) (hnd : (kwargs.map Prod.fst).Nodup) :
    lookupKey (applyKwargs job kwargs) key =
      match lookupKey kwargs key with
      | some v => if hasKey job key then some v else lookupKey job key
      | Option.none => lookupKey job key := by
  induction kwargs generalizing job with
  | nil => simp [applyKwargs, lookupKey]
  | cons p rest ih =>
    obtain ⟨k0, v0⟩ := p
    simp only [List.map_cons, List.nodup_cons] at hnd
    obtain ⟨hk0, hrest⟩ := hnd
    show lookupKey (applyKwargs (if hasKey job k0 then setKey job k0 v0 else job) rest) key = _
    by_cases hkey : k0 = key
    · subst hkey
      have hnone : lookupKey rest k0 = Option.none :=
        lookupKey_eq_none_of_not_mem rest k0 hk0
      rw [ih _ hrest, hnone]
      by_cases hin : hasKey job k0
      · simp [lookupKey, hin, lookupKey_setKey]
      · simp only [hin, if_false, Bool.false_eq_true]
        simp [lookupKey, hin]
    · have hcons : lookupKey ((k0, v0) :: rest) key = lookupKey rest key := by
        simp [lookupKey, hkey]
      rw [ih _ hrest, hcons]
      by_cases hin : hasKey job k0
      · simp only [hin, if_true]
        rw [show lookupKey (setKey job k0 v0) key = lookupKey job key by
              rw [lookupKey_setKey]; simp [hkey],
            show hasKey (setKey job k0 v0) key = hasKey job key by
              rw [hasKey_setKey]; simp [hkey]]
      · simp [hin]

/-! ## C7: store operations on an unknown id -/

/-- C7: for every store state and every job id not present in the store,
`update_status` is a no-op — it raises no exception (it is a total
function here, mirroring the early `return` of the source) and leaves
every job record unchanged — and `add_clip` on an unknown id likewise. -/
theorem c7_unknown_id_noop (sm : Store) (job_id : String)
    (kwargs : List (String × PyVal)) (now : ℚ) (clip : PyVal)
    (h : lookupKey sm job_id = Option.none) :
    update_status sm job_id kwargs now = sm ∧ add_clip sm job_id clip = sm := by
  unfold update_status add_clip
  rw [h]
  exact ⟨rfl, rfl⟩

theorem c7_unknown_id_noop_witness :
    lookupKey ([] : Store) "j" = Option.none ∧
      (update_status [] "j" [("progress", PyVal.num 5)] 1 = [] ∧
        add_clip [] "j" PyVal.noneV = []) :=
  ⟨rfl, c7_unknown_id_noop [] "j" [("progress", PyVal.num 5)] 1 PyVal.noneV rfl⟩

/-! ## C6: `create_job` on an existing id -/

/-- C6 counterexample: `create_job` performs no existence check.  Starting
from a store whose job `"j"` exists (and has been updated to status
`"processing"`), calling `create_job` again on `"j"` succeeds and silently
replaces the record with a fresh default one — it does not fail with an
`AlreadyExists` error. -/
theorem c6_counterexample :
    hasKey (update_status (create_job [] "j" 0) "j"
        [("status", PyVal.str "processing")] 1) "j" = true ∧
      lookupKey (create_job (update_status (create_job [] "j" 0) "j"
        [("status", PyVal.str "processing")] 1) "j" 2) "j" = some (defaultJob "j" 2) :=
  ⟨rfl, rfl⟩

/-- C6 (amended): `create_job(id)` never fails: it unconditionally assigns
a fresh Job with status `initializing`, step `starting`, progress 0 and an
empty clip list at `id` — overwriting any record already present — and
leaves every other id unchanged. -/
theorem c6_create_job_overwrites (sm : Store) (job_id : String) (now : ℚ) :
    lookupKey (create_job sm job_id now) job_id = some (defaultJob job_id now) ∧
    (∀ id2, id2 ≠ job_id → lookupKey (create_job sm job_id now) id2 = lookupKey sm id2) ∧
    lookupKey (defaultJob job_id now) "status" = some (PyVal.str "initializing") ∧
    lookupKey (defaultJob job_id now) "current_step" = some (PyVal.str "starting") ∧
    lookupKey (defaultJob job_id now) "progress" = some (PyVal.num 0) ∧
    lookupKey (defaultJob job_id now) "clips" = some (PyVal.listV []) := by
  refine ⟨?_, ?_, rfl, rfl, rfl, rfl⟩
  · unfold create_job
    rw [lookupKey_setKey]
    simp
  · intro id2 h2
    unfold create_job
    rw [lookupKey_setKey, if_neg (fun h => h2 h.symm)]

theorem c6_create_job_overwrites_witness :
    lookupKey (create_job [("k", defaultJob "k" 0)] "j" 1) "j" = some (defaultJob "j" 1) ∧
      ("k" : String) ≠ "j" ∧
      lookupKey (create_job [("k", defaultJob "k" 0)] "j" 1) "k" =
        lookupKey [("k", defaultJob "k" 0)] "k" :=
  ⟨(c6_create_job_overwrites [("k", defaultJob "k" 0)] "j" 1).1, by decide,
    (c6_create_job_overwrites [("k", defaultJob "k" 0)] "j" 1).2.1 "k" (by decide)⟩

/-! ## C10: the frame effect of `update_status` on an existing record -/

/-- C10: updating an existing job merges exactly the supplied keys that
are already fields of the record (a supplied key not present is silently
discarded and the record gains no new field), leaves every unsupplied
field unchanged, and refreshes `update_time`. -/
theorem c10_update_status_merge (sm : Store) (job_id : String) (job : JobRec)
    (kwargs : List (String × PyVal)) (now : ℚ)
    (hjob : lookupKey sm job_id = some job)
    (hnd : (kwargs.map Prod.fst).Nodup) :
    ∃ job1, lookupKey (update_status sm job_id kwargs now) job_id = some job1 ∧
      lookupKey job1 "update_time" = some (PyVal.num now) ∧
      ∀ key, key ≠ "update_time" →
        lookupKey job1 key =
          match lookupKey kwargs key with
          | some v => if hasKey job key then some v else lookupKey job key
          | Option.none => lookupKey job key := by
  refine ⟨setKey (applyKwargs job kwargs) "update_time" (PyVal.num now), ?_, ?_, ?_⟩
  · unfold update_status
    rw [hjob, lookupKey_setKey]
    simp
  · rw [lookupKey_setKey]
    simp
  · intro key hkey
    rw [lookupKey_setKey]
    rw [if_neg (fun h => hkey h.symm)]
    exact lookupKey_applyKwargs job kwargs key hnd

theorem c10_update_status_merge_witness :
    lookupKey (create_job [] "j" 0) "j" = some (defaultJob "j" 0) ∧
      (([("progress", PyVal.num 7), ("bogus", PyVal.str "x")].map
          (Prod.fst (α := String) (β := PyVal))).Nodup) ∧
      (∃ job1,
        lookupKey (update_status (create_job [] "j" 0) "j"
            [("progress", PyVal.num 7), ("bogus", PyVal.str "x")] 1) "j" = some job1 ∧
        lookupKey job1 "update_time" = some (PyVal.num 1) ∧
        ∀ key, key ≠ "update_time" →
          lookupKey job1 key =
            match lookupKey [("progress", PyVal.num 7), ("bogus", PyVal.str "x")] key with
            | some v => if hasKey (defaultJob "j" 0) key then some v
                        else lookupKey (defaultJob "j" 0) key
            | Option.none => lookupKey (defaultJob "j" 0) key) :=
  ⟨rfl, by decide,
    c10_update_status_merge (create_job [] "j" 0) "j" (defaultJob "j" 0)
      [("progress", PyVal.num 7), ("bogus", PyVal.str "x")] 1 rfl (by decide)⟩

/-! ## C1: the per-job state machine -/

/-- C1: for every run of `process_youtube_video` on a freshly created job
and every combination of stage outcomes, the `(status, current_step)`
observations of the job transition only along the chain
`starting → downloading → transcribing → analyzing → generating_clips →
completed` or, from a non-terminal state, to `failed` with the step
unchanged; every state with a successor in the trace is non-terminal, so
once `status` is `completed` or `failed`, no later operation of the run
changes `status` or `current_step` (indeed none occurs). -/
theorem c1_step_transitions (job_id : String) (t0 : ℚ) (clock : ℕ → ℚ)
    (download transcribe analyze : Except String Unit)
    (generate : Except String (List PyVal)) :
    List.Chain' okTransition
      (jobTrace job_id t0 clock download transcribe analyze generate) ∧
    ∀ p ∈ (jobTrace job_id t0 clock download transcribe analyze generate).dropLast,
      p.1 ≠ "completed" ∧ p.1 ≠ "failed" := by
  rcases download with e1 | _ <;> rcases transcribe with e2 | _ <;>
    rcases analyze with e3 | _ <;> rcases generate with e4 | clips <;>
    constructor <;>
    simp [jobTrace, runStates, process_youtube_video, stageEntry, stageFail, applyOp,
      update_status, create_job, defaultJob, applyKwargs, setKey, lookupKey, hasKey,
      statusStep, List.chain'_cons, List.chain'_singleton, okTransition, chainNext,
      List.dropLast]

/-! ## C5: how the orchestrator finishes a successful run -/

/-- C5 counterexample: on a successful final stage the orchestrator does
not append clips through `add_clip`, does not call `mark_completed`, and
does not trigger `save_to_disk`: every store operation of a concrete fully
successful run is an `update_status` call, and the last one delivers the
produced clips wholesale in its `clips` kwarg. -/
theorem c5_counterexample :
    (process_youtube_video "j" (Except.ok ()) (Except.ok ()) (Except.ok ())
        (Except.ok [PyVal.str "clip1"])).all isUpdateStatus = true ∧
      ((process_youtube_video "j" (Except.ok ()) (Except.ok ()) (Except.ok ())
          (Except.ok [PyVal.str "clip1"])).getLast?).map opKwargKeys =
        some ["status", "current_step", "progress", "message", "clips"] :=
  ⟨rfl, rfl⟩

/-- C5 (amended): when the final pipeline stage succeeds, the orchestrator
issues exactly one further store operation — a single `update_status` that
stores the produced clip list wholesale in the `clips` field and sets
status `completed`, step `completed`, progress 100 — after the four
stage-entry updates; no `add_clip`, `mark_completed` or `save_to_disk`
call is made. -/
theorem c5_success_single_update (job_id : String) (clips : List PyVal) :
    process_youtube_video job_id (Except.ok ()) (Except.ok ()) (Except.ok ())
        (Except.ok clips) =
      [stageEntry job_id "downloading" 0 "Downloading video",
       stageEntry job_id "transcribing" 20 "Transcribing video",
       stageEntry job_id "analyzing" 40 "Identifying highlights",
       stageEntry job_id "generating_clips" 60 "Generating clips",
       StoreOp.updateStatus job_id
         [("status", PyVal.str "completed"),
          ("current_step", PyVal.str "completed"),
          ("progress", PyVal.num 100),
          ("message", PyVal.str "Processing completed"),
          ("clips", PyVal.listV clips)]] ∧
    (process_youtube_video job_id (Except.ok ()) (Except.ok ()) (Except.ok ())
        (Except.ok clips)).all isUpdateStatus = true :=
  ⟨rfl, rfl⟩

/-! ## C2: exception behaviour of `time_to_seconds` -/

/-- C2 counterexample: `time_to_seconds` does not return on every input:
on `"a:b"` the string splits into two colon-separated parts, so the code
evaluates `int("a")`, and the resulting `ValueError` is not caught (the
`try`/`except` covers only the bare-number branch).  In the embedding the
escaping exception is `Option.none`; the input is also not in a supported
format yet does not yield `0.0`. -/
theorem c2_counterexample : time_to_seconds ['a', ':', 'b'] = Option.none := rfl

/-- C2 (amended): for every input string that does not split into exactly
two or three colon-separated parts (after normalizing commas), the parser
returns without raising: it yields the string's float value, and `0.0`
when the string is not parseable as a float.  (For strings that do split
into two or three parts, a non-numeric component raises `ValueError`, as
the counterexample shows.) -/
theorem c2_else_branch_total (t : Str)
    (h2 : (splitChar ':' (replaceComma t)).length ≠ 2)
    (h3 : (splitChar ':' (replaceComma t)).length ≠ 3) :
    time_to_seconds t = some ((pyFloat t).getD 0) := by
  have hstep : time_to_seconds t =
      match pyFloat t with
      | some v => some v
      | Option.none => some 0 := by
    unfold time_to_seconds
    rcases hl : splitChar ':' (replaceComma t) with _ | ⟨a, _ | ⟨b, _ | ⟨c, _ | ⟨d, rest⟩⟩⟩⟩
    · rfl
    · rfl
    · exact absurd (by rw [hl]; rfl) h2
    · exact absurd (by rw [hl]; rfl) h3
    · rfl
  rw [hstep]
  cases pyFloat t <;> rfl

theorem c2_else_branch_total_witness :
    (splitChar ':' (replaceComma ['a', 'b', 'c'])).length ≠ 2 ∧
      (splitChar ':' (replaceComma ['a', 'b', 'c'])).length ≠ 3 ∧
      time_to_seconds ['a', 'b', 'c'] = some ((pyFloat ['a', 'b', 'c']).getD 0) :=
  ⟨by decide, by decide, c2_else_branch_total ['a', 'b', 'c'] (by decide) (by decide)⟩

/-! ## Character and string lemmas -/

theorem isDigit_ne (c x : Char) (hd : c.isDigit = true) (hx : x.isDigit = false) :
    c ≠ x :=
  fun h => by subst h; rw [hd] at hx; exact Bool.noConfusion hx

theorem isPySpace_of_digit (c : Char) (hd : c.isDigit = true) : isPySpace c = false := by
  unfold isPySpace
  rw [decide_eq_false (isDigit_ne c ' ' hd (by decide)),
    decide_eq_false (isDigit_ne c '\t' hd (by decide)),
    decide_eq_false (isDigit_ne c '\n' hd (by decide)),
    decide_eq_false (isDigit_ne c '\r' hd (by decide)),
    decide_eq_false (isDigit_ne c (Char.ofNat 11) hd (by decide)),
    decide_eq_false (isDigit_ne c (Char.ofNat 12) hd (by decide))]
  rfl

theorem dropWhile_eq_self_of_head (p : Char → Bool) (l : Str)
    (h : ∀ c ∈ l.take 1, p c = false) : l.dropWhile p = l := by
  cases l with
  | nil => rfl
  | cons c rest => simp [List.dropWhile, h c (by simp)]

theorem stripWs_eq_self (l : Str) (h : ∀ c ∈ l, isPySpace c = false) :
    stripWs l = l := by
  unfold stripWs
  rw [dropWhile_eq_self_of_head isPySpace l
    (fun c hc => h c (List.mem_of_mem_take hc))]
  rw [dropWhile_eq_self_of_head isPySpace l.reverse
    (fun c hc => h c (List.mem_reverse.mp (List.mem_of_mem_take hc)))]
  exact List.reverse_reverse l

theorem takeWhile_all (p : Char → Bool) (a : Str) (ha : ∀ x ∈ a, p x = true) :
    a.takeWhile p = a ∧ a.dropWhile p = [] := by
  induction a with
  | nil => exact ⟨rfl, rfl⟩
  | cons c rest ih =>
    have hc := ha c (by simp)
    have := ih (fun x hx => ha x (by simp [hx]))
    simp [List.takeWhile, List.dropWhile, hc, this.1, this.2]

theorem takeWhile_append_cons (p : Char → Bool) (a : Str) (c : Char) (r : Str)
    (ha : ∀ x ∈ a, p x = true) (hc : p c = false) :
    (a ++ c :: r).takeWhile p = a ∧ (a ++ c :: r).dropWhile p = c :: r := by
  induction a with
  | nil => simp [List.takeWhile, List.dropWhile, hc]
  | cons x rest ih =>
    have hx := ha x (by simp)
    have := ih (fun y hy => ha y (by simp [hy]))
    simp [List.takeWhile, List.dropWhile, hx, this.1, this.2]

theorem splitChar_no_sep (sep : Char) (l : Str) (h : ∀ c ∈ l, c ≠ sep) :
    splitChar sep l = [l] := by
  induction l with
  | nil => rfl
  | cons c rest ih =>
    have hc : ¬ c = sep := h c (by simp)
    have := ih (fun x hx => h x (by simp [hx]))
    simp [splitChar, hc, this]

theorem splitChar_append (sep : Char) (a r : Str) (h : ∀ c ∈ a, c ≠ sep) :
    splitChar sep (a ++ sep :: r) = a :: splitChar sep r := by
  induction a with
  | nil => simp [splitChar]
  | cons c rest ih =>
    have hc : ¬ c = sep := h c (by simp)
    have := ih (fun x hx => h x (by simp [hx]))
    simp [splitChar, hc, this]

theorem replaceComma_eq_self (l : Str) (h : ∀ c ∈ l, c ≠ ',') :
    replaceComma l = l := by
  induction l with
  | nil => rfl
  | cons c rest ih =>
    have hc : ¬ c = ',' := h c (by simp)
    have hr := ih (fun x hx => h x (by simp [hx]))
    show (if c = ',' then '.' else c) :: replaceComma rest = c :: rest
    rw [if_neg hc, hr]

theorem digitsNE_all_digits (l : Str) (h : digitsNE l = true) :
    l ≠ [] ∧ ∀ c ∈ l, c.isDigit = true := by
  unfold digitsNE at h
  rw [Bool.and_eq_true, List.all_eq_true] at h
  refine ⟨?_, fun c hc => h.2 c hc⟩
  intro hnil
  subst hnil
  exact absurd h.1 (by decide)

/-! ## `pyInt` and `pyFloat` on digit strings -/

theorem pyInt_digits (d : Str) (h : digitsNE d = true) :
    pyInt d = some ((digitsVal d : ℤ)) := by
  obtain ⟨hne, hall⟩ := digitsNE_all_digits d h
  have hstrip : stripWs d = d :=
    stripWs_eq_self d (fun c hc => isPySpace_of_digit c (hall c hc))
  unfold pyInt
  rw [hstrip]
  cases d with
  | nil => exact absurd rfl hne
  | cons c rest =>
    have hcd := hall c (by simp)
    rw [pySignedDigits, if_neg (isDigit_ne c '-' hcd (by decide)),
      if_neg (isDigit_ne c '+' hcd (by decide))]
    unfold digitsValNE
    rw [if_pos h]
    rfl

theorem applyExp_nil (m : ℚ) : applyExp m [] = some m := rfl

theorem isEmpty_false_of_ne_nil (l : Str) (h : l ≠ []) : l.isEmpty = false := by
  cases l with
  | nil => exact absurd rfl h
  | cons c rest => rfl

theorem pyFloatMag_digits (d : Str) (h : digitsNE d = true) :
    pyFloatMag d = some ((digitsVal d : ℚ)) := by
  obtain ⟨hne, hall⟩ := digitsNE_all_digits d h
  obtain ⟨htake, hdrop⟩ := takeWhile_all Char.isDigit d hall
  unfold pyFloatMag
  simp only [htake, hdrop, isEmpty_false_of_ne_nil d hne]
  rfl

theorem pyFloatMag_frac (a b : Str) (ha : digitsNE a = true) (hb : digitsNE b = true) :
    pyFloatMag (a ++ '.' :: b) =
      some ((digitsVal a : ℚ) + (digitsVal b : ℚ) / (10 : ℚ) ^ b.length) := by
  obtain ⟨hane, haall⟩ := digitsNE_all_digits a ha
  obtain ⟨hbne, hball⟩ := digitsNE_all_digits b hb
  obtain ⟨htake, hdrop⟩ := takeWhile_append_cons Char.isDigit a '.' b haall (by decide)
  obtain ⟨htakeb, hdropb⟩ := takeWhile_all Char.isDigit b hball
  unfold pyFloatMag
  simp only [htake, hdrop, htakeb, hdropb, isEmpty_false_of_ne_nil a hane,
    Bool.false_and]
  rfl

theorem pyFloat_digits (d : Str) (h : digitsNE d = true) :
    pyFloat d = some ((digitsVal d : ℚ)) := by
  obtain ⟨hne, hall⟩ := digitsNE_all_digits d h
  have hstrip : stripWs d = d :=
    stripWs_eq_self d (fun c hc => isPySpace_of_digit c (hall c hc))
  unfold pyFloat
  rw [hstrip]
  cases d with
  | nil => exact absurd rfl hne
  | cons c rest =>
    have hcd := hall c (by simp)
    rw [pySignedFloat, if_neg (isDigit_ne c '-' hcd (by decide)),
      if_neg (isDigit_ne c '+' hcd (by decide))]
    exact pyFloatMag_digits (c :: rest) h

theorem pyFloat_frac (a b : Str) (ha : digitsNE a = true) (hb : digitsNE b = true) :
    pyFloat (a ++ '.' :: b) =
      some ((digitsVal a : ℚ) + (digitsVal b : ℚ) / (10 : ℚ) ^ b.length) := by
  obtain ⟨hane, haall⟩ := digitsNE_all_digits a ha
  obtain ⟨hbne, hball⟩ := digitsNE_all_digits b hb
  have hsp : ∀ c ∈ a ++ '.' :: b, isPySpace c = false := by
    intro c hc
    rcases List.mem_append.mp hc with hc | hc
    · exact isPySpace_of_digit c (haall c hc)
    · rcases List.mem_cons.mp hc with rfl | hc
      · decide
      · exact isPySpace_of_digit c (hball c hc)
  have hstrip : stripWs (a ++ '.' :: b) = a ++ '.' :: b :=
    stripWs_eq_self _ hsp
  unfold pyFloat
  rw [hstrip]
  cases a with
  | nil => exact absurd rfl hane
  | cons c rest =>
    have hcd := haall c (by simp)
    rw [List.cons_append, pySignedFloat,
      if_neg (isDigit_ne c '-' hcd (by decide)),
      if_neg (isDigit_ne c '+' hcd (by decide)),
      ← List.cons_append]
    exact pyFloatMag_frac (c :: rest) b ha hb

/-! ## Timestamps matched by the time-range pattern always parse -/

theorem takeDigits1_sound (l d r : Str) (h : takeDigits1 l = some (d, r)) :
    digitsNE d = true := by
  unfold takeDigits1 at h
  split at h
  · exact absurd h (by simp)
  · next he =>
    rw [Option.some.injEq, Prod.mk.injEq] at h
    obtain ⟨rfl, rfl⟩ := h
    unfold digitsNE
    rw [Bool.and_eq_true, List.all_eq_true]
    refine ⟨by simpa using he, fun c hc => List.mem_takeWhile_imp hc⟩

theorem matchTimestamp_sound (l g r : Str) (h : matchTimestamp l = some (g, r)) :
    ∃ a b c d, digitsNE a = true ∧ digitsNE b = true ∧ digitsNE c = true ∧
      digitsNE d = true ∧ g = a ++ ':' :: b ++ ':' :: c ++ ',' :: d := by
  unfold matchTimestamp at h
  rcases e1 : takeDigits1 l with _ | ⟨a, r1⟩ <;> rw [e1] at h
  · exact absurd h (by simp)
  simp only [Bind.bind, Option.bind] at h
  rcases e2 : expectChar ':' r1 with _ | r2 <;> rw [e2] at h
  · exact absurd h (by simp)
  simp only [Bind.bind, Option.bind] at h
  rcases e3 : takeDigits1 r2 with _ | ⟨b, r3⟩ <;> rw [e3] at h
  · exact absurd h (by simp)
  simp only [Bind.bind, Option.bind] at h
  rcases e4 : expectChar ':' r3 with _ | r4 <;> rw [e4] at h
  · exact absurd h (by simp)
  simp only [Bind.bind, Option.bind] at h
  rcases e5 : takeDigits1 r4 with _ | ⟨c, r5⟩ <;> rw [e5] at h
  · exact absurd h (by simp)
  simp only [Bind.bind, Option.bind] at h
  rcases e6 : expectChar ',' r5 with _ | r6 <;> rw [e6] at h
  · exact absurd h (by simp)
  simp only [Bind.bind, Option.bind] at h
  rcases e7 : takeDigits1 r6 with _ | ⟨d, r7⟩ <;> rw [e7] at h
  · exact absurd h (by simp)
  simp only [Bind.bind, Option.bind, Option.pure_def, Option.some.injEq, Prod.mk.injEq] at h
  exact ⟨a, b, c, d, takeDigits1_sound l a r1 e1, takeDigits1_sound r2 b r3 e3,
    takeDigits1_sound r4 c r5 e5, takeDigits1_sound r6 d r7 e7, h.1.symm⟩

theorem timeLineMatch_groups (l g1 g2 : Str) (h : timeLineMatch l = some (g1, g2)) :
    (∃ a b c d, digitsNE a = true ∧ digitsNE b = true ∧ digitsNE c = true ∧
      digitsNE d = true ∧ g1 = a ++ ':' :: b ++ ':' :: c ++ ',' :: d) ∧
    (∃ a b c d, digitsNE a = true ∧ digitsNE b = true ∧ digitsNE c = true ∧
      digitsNE d = true ∧ g2 = a ++ ':' :: b ++ ':' :: c ++ ',' :: d) := by
  unfold timeLineMatch at h
  rcases e1 : matchTimestamp l with _ | ⟨h1, r1⟩ <;> rw [e1] at h
  · exact absurd h (by simp)
  simp only [Bind.bind, Option.bind] at h
  rcases e2 : expectChar '-' (r1.dropWhile isPySpace) with _ | r3 <;> rw [e2] at h
  · exact absurd h (by simp)
  simp only [Bind.bind, Option.bind] at h
  rcases e3 : expectChar '-' r3 with _ | r4 <;> rw [e3] at h
  · exact absurd h (by simp)
  simp only [Bind.bind, Option.bind] at h
  rcases e4 : expectChar '>' r4 with _ | r5 <;> rw [e4] at h
  · exact absurd h (by simp)
  simp only [Bind.bind, Option.bind] at h
  rcases e5 : matchTimestamp (r5.dropWhile isPySpace) with _ | ⟨h2, r6⟩ <;> rw [e5] at h
  · exact absurd h (by simp)
  simp only [Bind.bind, Option.bind, Option.pure_def, Option.some.injEq, Prod.mk.injEq] at h
  obtain ⟨rfl, rfl⟩ := h
  exact ⟨matchTimestamp_sound l h1 r1 e1,
    matchTimestamp_sound (r5.dropWhile isPySpace) h2 r6 e5⟩

theorem replaceComma_append (a b : Str) :
    replaceComma (a ++ b) = replaceComma a ++ replaceComma b :=
  List.map_append _ a b

theorem replaceComma_cons (c : Char) (l : Str) :
    replaceComma (c :: l) = (if c = ',' then '.' else c) :: replaceComma l := rfl

theorem replaceComma_digits (d : Str) (hd : ∀ c ∈ d, c.isDigit = true) :
    replaceComma d = d :=
  replaceComma_eq_self d (fun c hc => isDigit_ne c ',' (hd c hc) (by decide))

theorem timestamp_assoc (a b c d : Str) (x : Char) :
    a ++ ':' :: b ++ ':' :: c ++ x :: d = a ++ ':' :: (b ++ ':' :: (c ++ x :: d)) := by
  simp [List.append_assoc]

/-- Normalizing the comma of a matched timestamp. -/
theorem replaceComma_timestamp (a b c d : Str)
    (ha : digitsNE a = true) (hb : digitsNE b = true)
    (hc : digitsNE c = true) (hd : digitsNE d = true) :
    replaceComma (a ++ ':' :: b ++ ':' :: c ++ ',' :: d) =
      a ++ ':' :: b ++ ':' :: c ++ '.' :: d := by
  rw [timestamp_assoc, timestamp_assoc, replaceComma_append, replaceComma_cons,
    replaceComma_append, replaceComma_cons, replaceComma_append, replaceComma_cons,
    replaceComma_digits a (digitsNE_all_digits a ha).2,
    replaceComma_digits b (digitsNE_all_digits b hb).2,
    replaceComma_digits c (digitsNE_all_digits c hc).2,
    replaceComma_digits d (digitsNE_all_digits d hd).2,
    if_neg (by decide : ¬ (':' : Char) = ','), if_pos rfl]

/-- `time_to_seconds` on a string of the timestamp shape
`d+:d+:d+<sep>d+`, with either fraction separator, always succeeds. -/
theorem time_to_seconds_timeShape (a b c d : Str) (sep : Char)
    (hsep : sep = '.' ∨ sep = ',')
    (ha : digitsNE a = true) (hb : digitsNE b = true)
    (hc : digitsNE c = true) (hd : digitsNE d = true) :
    time_to_seconds (a ++ ':' :: b ++ ':' :: c ++ sep :: d) =
      some ((digitsVal a : ℚ) * 3600 + (digitsVal b : ℚ) * 60 +
        ((digitsVal c : ℚ) + (digitsVal d : ℚ) / (10 : ℚ) ^ d.length)) := by
  obtain ⟨hane, haall⟩ := digitsNE_all_digits a ha
  obtain ⟨hbne, hball⟩ := digitsNE_all_digits b hb
  obtain ⟨hcne, hcall⟩ := digitsNE_all_digits c hc
  obtain ⟨hdne, hdall⟩ := digitsNE_all_digits d hd
  have hnc : replaceComma (a ++ ':' :: b ++ ':' :: c ++ sep :: d) =
      a ++ ':' :: b ++ ':' :: c ++ '.' :: d := by
    rcases hsep with rfl | rfl
    · rw [timestamp_assoc]
      refine replaceComma_eq_self _ (fun x hx => ?_)
      rcases List.mem_append.mp hx with hx | hx
      · exact isDigit_ne x ',' (haall x hx) (by decide)
      rcases List.mem_cons.mp hx with rfl | hx
      · decide
      rcases List.mem_append.mp hx with hx | hx
      · exact isDigit_ne x ',' (hball x hx) (by decide)
      rcases List.mem_cons.mp hx with rfl | hx
      · decide
      rcases List.mem_append.mp hx with hx | hx
      · exact isDigit_ne x ',' (hcall x hx) (by decide)
      rcases List.mem_cons.mp hx with rfl | hx
      · decide
      · exact isDigit_ne x ',' (hdall x hx) (by decide)
    · exact replaceComma_timestamp a b c d ha hb hc hd
  have hsplit : splitChar ':' (a ++ ':' :: b ++ ':' :: c ++ '.' :: d) =
      [a, b, c ++ '.' :: d] := by
    rw [timestamp_assoc,
      splitChar_append ':' a _ (fun x hx => isDigit_ne x ':' (haall x hx) (by decide)),
      splitChar_append ':' b _ (fun x hx => isDigit_ne x ':' (hball x hx) (by decide)),
      splitChar_no_sep ':' (c ++ '.' :: d) ?_]
    intro x hx
    rcases List.mem_append.mp hx with hx | hx
    · exact isDigit_ne x ':' (hcall x hx) (by decide)
    rcases List.mem_cons.mp hx with rfl | hx
    · decide
    · exact isDigit_ne x ':' (hdall x hx) (by decide)
  unfold time_to_seconds
  rw [hnc, hsplit]
  simp only [pyInt_digits a ha, pyInt_digits b hb, pyFloat_frac c d hc hd,
    Bind.bind, Option.bind, Option.pure_def, Option.some.injEq]
  push_cast
  ring

/-- On a timestamp matched by the time-range pattern, `time_to_seconds`
(applied by the extractor after `.replace(',', '.')`) always succeeds,
with a nonnegative value. -/
theorem time_to_seconds_timestamp (a b c d : Str)
    (ha : digitsNE a = true) (hb : digitsNE b = true)
    (hc : digitsNE c = true) (hd : digitsNE d = true) :
    time_to_seconds (replaceComma (a ++ ':' :: b ++ ':' :: c ++ ',' :: d)) =
      some ((digitsVal a : ℚ) * 3600 + (digitsVal b : ℚ) * 60 +
        ((digitsVal c : ℚ) + (digitsVal d : ℚ) / (10 : ℚ) ^ d.length)) := by
  rw [replaceComma_timestamp a b c d ha hb hc hd]
  exact time_to_seconds_timeShape a b c d '.' (Or.inl rfl) ha hb hc hd

theorem timestamp_value_nonneg (a b c d : Str) :
    (0 : ℚ) ≤ (digitsVal a : ℚ) * 3600 + (digitsVal b : ℚ) * 60 +
      ((digitsVal c : ℚ) + (digitsVal d : ℚ) / (10 : ℚ) ^ d.length) := by
  positivity

/-! ## Characterization of the extractor loop -/

theorem keepCue_true_iff (s e ss se1 : ℚ) (txt : List Str) :
    keepCue s e (ss, se1, txt) = true ↔ ¬(se1 < s ∨ ss > e) := by
  simp [keepCue, not_or]

theorem keepCue_false_iff (s e ss se1 : ℚ) (txt : List Str) :
    keepCue s e (ss, se1, txt) = false ↔ (se1 < s ∨ ss > e) := by
  simp [keepCue, or_iff_not_imp_left]

theorem numberFrom_map_payload (l : List (ℚ × ℚ × List Str)) (n : ℕ) :
    (numberFrom n l).map (fun c => (c.cueStart, c.cueEnd, c.text)) = l := by
  induction l generalizing n with
  | nil => rfl
  | cons c rest ih => simp [numberFrom, ih]

theorem numberFrom_map_idx (l : List (ℚ × ℚ × List Str)) (n : ℕ) :
    (numberFrom n l).map SrtCue.idx = List.range' n l.length := by
  induction l generalizing n with
  | nil => rfl
  | cons c rest ih => simp [numberFrom, ih, List.range']

/-- The loop of the extractor never hits its exception fallback: it
computes exactly the re-numbered, re-timed selection of the parseable,
overlapping cues, in source order. -/
theorem extractLoop_eq (startS endS : ℚ) (blocks : List (List Str)) (n : ℕ) :
    extractLoop startS endS blocks n =
      some (numberFrom n (selectedCues blocks startS endS)) := by
  induction blocks generalizing n with
  | nil => rfl
  | cons lines rest ih =>
    rcases lines with _ | ⟨l0, _ | ⟨l1, _ | ⟨t0, ts⟩⟩⟩
    · simp only [extractLoop, ih, selectedCues, List.filterMap_cons, parseBlockTimes]
    · simp only [extractLoop, ih, selectedCues, List.filterMap_cons, parseBlockTimes]
    · simp only [extractLoop, ih, selectedCues, List.filterMap_cons, parseBlockTimes]
    · rcases et : timeLineMatch l1 with _ | ⟨g1, g2⟩
      · simp only [extractLoop, et, ih, selectedCues, List.filterMap_cons, parseBlockTimes]
      · obtain ⟨⟨a1, b1, c1, d1, ha1, hb1, hc1, hd1, hg1⟩,
          ⟨a2, b2, c2, d2, ha2, hb2, hc2, hd2, hg2⟩⟩ := timeLineMatch_groups l1 g1 g2 et
        obtain ⟨v1, hv1⟩ : ∃ v, time_to_seconds (replaceComma g1) = some v :=
          ⟨_, by rw [hg1]; exact time_to_seconds_timestamp a1 b1 c1 d1 ha1 hb1 hc1 hd1⟩
        obtain ⟨v2, hv2⟩ : ∃ v, time_to_seconds (replaceComma g2) = some v :=
          ⟨_, by rw [hg2]; exact time_to_seconds_timestamp a2 b2 c2 d2 ha2 hb2 hc2 hd2⟩
        have hpb : parseBlockTimes (l0 :: l1 :: t0 :: ts) = some (v1, v2, t0 :: ts) := by
          simp [parseBlockTimes, et, hv1, hv2]
        by_cases hk : v2 < startS ∨ v1 > endS
        · have hkeep : keepCue startS endS (v1, v2, t0 :: ts) = false :=
            (keepCue_false_iff startS endS v1 v2 (t0 :: ts)).mpr hk
          simp [extractLoop, et, hv1, hv2, if_pos hk, ih, selectedCues,
            List.filterMap_cons, hpb, List.filter_cons, hkeep]
        · have hkeep : keepCue startS endS (v1, v2, t0 :: ts) = true :=
            (keepCue_true_iff startS endS v1 v2 (t0 :: ts)).mpr hk
          simp [extractLoop, et, hv1, hv2, if_neg hk, ih, Bind.bind, Option.bind,
            Option.pure_def, selectedCues, List.filterMap_cons, hpb, List.filter_cons,
            hkeep, List.map_cons, numberFrom, adjustCue]

/-- `extract_srt_segment` as a selection pipeline. -/
theorem extract_srt_eq (blocks : List (List Str)) (s e : ℚ) :
    extract_srt_segment blocks s e = numberFrom 1 (selectedCues blocks s e) := by
  unfold extract_srt_segment
  rw [extractLoop_eq]
  rfl

/-- A malformed block — fewer than 3 lines, or a second line that the
time-range pattern does not match — contributes nothing. -/
theorem parseBlockTimes_none_of_malformed (b : List Str)
    (h : b.length < 3 ∨ timeLineMatch (b.getD 1 []) = Option.none) :
    parseBlockTimes b = Option.none := by
  rcases b with _ | ⟨l0, _ | ⟨l1, _ | ⟨t0, ts⟩⟩⟩
  · rfl
  · rfl
  · rfl
  · rcases h with h | h
    · exact absurd h (by simp)
    · simp only [List.getD, List.get?, Option.getD_some] at h
      simp [parseBlockTimes, h]

/-- The concrete sample block parses to the cue `[1.5, 2.5]` with text
`"hi"`.  (Proved through `time_to_seconds_timestamp`: the kernel does not
reduce `Rat` arithmetic, so this is not a `decide`.) -/
theorem parseBlockTimes_sampleBlock :
    parseBlockTimes sampleBlock = some ((3 : ℚ)/2, (5 : ℚ)/2, [['h', 'i']]) := by
  have e : timeLineMatch
      ['0', ':', '0', ':', '1', ',', '5', ' ', '-', '-', '>', ' ',
       '0', ':', '0', ':', '2', ',', '5'] =
      some (['0', ':', '0', ':', '1', ',', '5'], ['0', ':', '0', ':', '2', ',', '5']) := by
    decide
  have hd : digitsVal ['0'] = 0 ∧ digitsVal ['1'] = 1 ∧ digitsVal ['2'] = 2 ∧
      digitsVal ['5'] = 5 ∧ (['5'] : Str).length = 1 := by decide
  have v1 : time_to_seconds (replaceComma ['0', ':', '0', ':', '1', ',', '5']) =
      some ((3 : ℚ)/2) := by
    rw [show (['0', ':', '0', ':', '1', ',', '5'] : Str) =
        ['0'] ++ ':' :: ['0'] ++ ':' :: ['1'] ++ ',' :: ['5'] from rfl,
      time_to_seconds_timestamp ['0'] ['0'] ['1'] ['5']
        (by decide) (by decide) (by decide) (by decide),
      hd.1, hd.2.1, hd.2.2.2.1, hd.2.2.2.2]
    norm_num
  have v2 : time_to_seconds (replaceComma ['0', ':', '0', ':', '2', ',', '5']) =
      some ((5 : ℚ)/2) := by
    rw [show (['0', ':', '0', ':', '2', ',', '5'] : Str) =
        ['0'] ++ ':' :: ['0'] ++ ':' :: ['2'] ++ ',' :: ['5'] from rfl,
      time_to_seconds_timestamp ['0'] ['0'] ['2'] ['5']
        (by decide) (by decide) (by decide) (by decide),
      hd.1, hd.2.2.1, hd.2.2.2.1, hd.2.2.2.2]
    norm_num
  simp [parseBlockTimes, sampleBlock, e, v1, v2]

theorem numberFrom_length (l : List (ℚ × ℚ × List Str)) (n : ℕ) :
    (numberFrom n l).length = l.length := by
  induction l generalizing n with
  | nil => rfl
  | cons c rest ih => simp [numberFrom, ih]

/-! ## C3: bounds and re-indexing of extracted cues -/

/-- C3: for every well-formed caption track (every block that parses has
`start ≤ end`) and every window `[s, e)` with `0 ≤ s < e`, every emitted
cue satisfies `0 ≤ adjustedStart ≤ adjustedEnd ≤ e - s`, the emitted
indices are exactly `1..N`, and the emitted `(start, end, text)` triples
are exactly the window-overlapping source cues, re-timed by `adjustCue`
(`max 0 (start - s)`, `min (e - s) (end - s)`), in source order. -/
theorem c3_extract_cue_bounds (blocks : List (List Str)) (s e : ℚ)
    (hs : 0 ≤ s) (hse : s < e)
    (hwf : ∀ b ∈ blocks,
      (parseBlockTimes b).all (fun c => decide (c.1 ≤ c.2.1)) = true) :
    (∀ cue ∈ extract_srt_segment blocks s e,
      0 ≤ cue.cueStart ∧ cue.cueStart ≤ cue.cueEnd ∧ cue.cueEnd ≤ e - s) ∧
    (extract_srt_segment blocks s e).map SrtCue.idx =
      List.range' 1 (extract_srt_segment blocks s e).length ∧
    (extract_srt_segment blocks s e).map (fun c => (c.cueStart, c.cueEnd, c.text)) =
      selectedCues blocks s e := by
  refine ⟨?_, ?_, ?_⟩
  · intro cue hcue
    rw [extract_srt_eq] at hcue
    have hp : (cue.cueStart, cue.cueEnd, cue.text) ∈ selectedCues blocks s e := by
      rw [← numberFrom_map_payload (selectedCues blocks s e) 1]
      exact List.mem_map_of_mem _ hcue
    unfold selectedCues at hp
    obtain ⟨raw, hrawmem, hadj⟩ := List.mem_map.mp hp
    obtain ⟨hrawfm, hkeep⟩ := List.mem_filter.mp hrawmem
    obtain ⟨b, hb, hpb⟩ := List.mem_filterMap.mp hrawfm
    obtain ⟨ss, se1, txt⟩ := raw
    have hwfb := hwf b hb
    rw [hpb, Option.all_some, decide_eq_true_eq] at hwfb
    obtain ⟨hk1, hk2⟩ := not_or.mp ((keepCue_true_iff s e ss se1 txt).mp hkeep)
    rw [not_lt] at hk1
    rw [not_lt] at hk2
    unfold adjustCue at hadj
    rw [Prod.ext_iff, Prod.ext_iff] at hadj
    obtain ⟨h1, h2, h3⟩ := hadj
    dsimp only at h1 h2 h3
    rw [← h1, ← h2]
    refine ⟨le_max_left 0 _, ?_, min_le_left _ _⟩
    exact max_le (le_min (by linarith) (by linarith)) (le_min (by linarith) (by linarith))
  · rw [extract_srt_eq, numberFrom_map_idx, numberFrom_length]
  · rw [extract_srt_eq, numberFrom_map_payload]

theorem c3_extract_cue_bounds_witness :
    (0 : ℚ) ≤ 0 ∧ (0 : ℚ) < 2 ∧
    (∀ b ∈ sampleTrack,
      (parseBlockTimes b).all (fun c => decide (c.1 ≤ c.2.1)) = true) ∧
    ((∀ cue ∈ extract_srt_segment sampleTrack 0 2,
      0 ≤ cue.cueStart ∧ cue.cueStart ≤ cue.cueEnd ∧ cue.cueEnd ≤ 2 - 0) ∧
    (extract_srt_segment sampleTrack 0 2).map SrtCue.idx =
      List.range' 1 (extract_srt_segment sampleTrack 0 2).length ∧
    (extract_srt_segment sampleTrack 0 2).map (fun c => (c.cueStart, c.cueEnd, c.text)) =
      selectedCues sampleTrack 0 2) :=
  by
  have hwf : ∀ b ∈ sampleTrack,
      (parseBlockTimes b).all (fun c => decide (c.1 ≤ c.2.1)) = true := by
    intro b hb
    have hb1 : b = sampleBlock := by simpa [sampleTrack] using hb
    subst hb1
    rw [parseBlockTimes_sampleBlock, Option.all_some, decide_eq_true_eq]
    norm_num
  exact ⟨le_refl 0, by norm_num, hwf,
    c3_extract_cue_bounds sampleTrack 0 2 (le_refl 0) (by norm_num) hwf⟩

/-! ## C8: error policy of the extractor -/

/-- C8: the extractor never propagates an error: the loop never reaches
the exception fallback (second conjunct); a malformed cue block (fewer
than 3 lines, or a second line not matching the time-range pattern) is
skipped while the remaining blocks are still processed; an empty track,
or a track whose parsed cues all fall outside the window, yields zero
cues, and zero cues serialize to an empty (but valid) output file. -/
theorem c8_extract_error_policy :
    (∀ s e : ℚ, extract_srt_segment [] s e = []) ∧
    (∀ (blocks : List (List Str)) (s e : ℚ),
      extractLoop s e blocks 1 = some (extract_srt_segment blocks s e)) ∧
    (∀ (pre post : List (List Str)) (b : List Str) (s e : ℚ),
      b.length < 3 ∨ timeLineMatch (b.getD 1 []) = Option.none →
      extract_srt_segment (pre ++ b :: post) s e = extract_srt_segment (pre ++ post) s e) ∧
    (∀ (blocks : List (List Str)) (s e : ℚ),
      (∀ b ∈ blocks, (parseBlockTimes b).all
        (fun c => decide (c.2.1 < s) || decide (c.1 > e)) = true) →
      extract_srt_segment blocks s e = []) ∧
    renderSrt [] = [] := by
  refine ⟨fun s e => rfl, fun blocks s e => ?_, ?_, ?_, rfl⟩
  · rw [extractLoop_eq, extract_srt_eq]
  · intro pre post b s e h
    rw [extract_srt_eq, extract_srt_eq]
    unfold selectedCues
    rw [List.filterMap_append, List.filterMap_append, List.filterMap_cons,
      parseBlockTimes_none_of_malformed b h]
  · intro blocks s e h
    rw [extract_srt_eq]
    unfold selectedCues
    have hnil : (blocks.filterMap parseBlockTimes).filter (keepCue s e) = [] := by
      rw [List.filter_eq_nil_iff]
      intro raw hraw
      obtain ⟨b, hb, hpb⟩ := List.mem_filterMap.mp hraw
      have := h b hb
      rw [hpb, Option.all_some] at this
      unfold keepCue
      rw [this]
      decide
    rw [hnil]
    rfl

theorem c8_extract_error_policy_witness :
    (([['x']] : List Str).length < 3 ∨
      timeLineMatch (([['x']] : List Str).getD 1 []) = Option.none) ∧
    extract_srt_segment ([] ++ [['x']] :: []) 0 1 = extract_srt_segment ([] ++ []) 0 1 ∧
    (∀ b ∈ sampleTrack,
      (parseBlockTimes b).all
        (fun c => decide (c.2.1 < (10 : ℚ)) || decide (c.1 > (20 : ℚ))) = true) ∧
    extract_srt_segment sampleTrack 10 20 = [] :=
  by
  have hout : ∀ b ∈ sampleTrack,
      (parseBlockTimes b).all
        (fun c => decide (c.2.1 < (10 : ℚ)) || decide (c.1 > (20 : ℚ))) = true := by
    intro b hb
    have hb1 : b = sampleBlock := by simpa [sampleTrack] using hb
    subst hb1
    rw [parseBlockTimes_sampleBlock, Option.all_some]
    simp only [Bool.or_eq_true, decide_eq_true_eq]
    left
    norm_num
  exact ⟨Or.inl (by decide),
    c8_extract_error_policy.2.2.1 [] [] [['x']] 0 1 (Or.inl (by decide)),
    hout,
    c8_extract_error_policy.2.2.2.1 sampleTrack 10 20 hout⟩

/-! ## C9: the boundary-inclusive window test -/

/-- C9: a parsed cue is kept iff `¬(cue.end < s ∨ cue.start > e)` — the
extractor is exactly the re-numbering of the source cues surviving this
test, re-timed — and in particular a well-formed cue flush with either
window boundary (`cue.end = s`, or `cue.start = e`) is kept. -/
theorem c9_boundary_inclusive :
    (∀ (blocks : List (List Str)) (s e : ℚ),
      extract_srt_segment blocks s e =
        numberFrom 1 (((blocks.filterMap parseBlockTimes).filter
          (fun c => !(decide (c.2.1 < s) || decide (c.1 > e)))).map (adjustCue s e))) ∧
    (∀ (b : List Str) (ss se1 : ℚ) (txt : List Str) (s e : ℚ),
      parseBlockTimes b = some (ss, se1, txt) → ss ≤ se1 → s ≤ e → se1 = s →
      extract_srt_segment [b] s e ≠ []) ∧
    (∀ (b : List Str) (ss se1 : ℚ) (txt : List Str) (s e : ℚ),
      parseBlockTimes b = some (ss, se1, txt) → ss ≤ se1 → s ≤ e → ss = e →
      extract_srt_segment [b] s e ≠ []) := by
  refine ⟨fun blocks s e => extract_srt_eq blocks s e, ?_, ?_⟩
  · intro b ss se1 txt s e hpb hwf hse hflush
    rw [extract_srt_eq]
    unfold selectedCues
    rw [List.filterMap_cons, hpb]
    have hkeep : keepCue s e (ss, se1, txt) = true := by
      rw [keepCue_true_iff]
      rw [not_or]
      constructor
      · rw [hflush]; exact lt_irrefl s
      · rw [not_lt]; linarith
    simp [List.filter_cons, hkeep, numberFrom]
  · intro b ss se1 txt s e hpb hwf hse hflush
    rw [extract_srt_eq]
    unfold selectedCues
    rw [List.filterMap_cons, hpb]
    have hkeep : keepCue s e (ss, se1, txt) = true := by
      rw [keepCue_true_iff]
      rw [not_or]
      constructor
      · rw [not_lt]; linarith
      · rw [hflush]; exact lt_irrefl e
    simp [List.filter_cons, hkeep, numberFrom]

theorem c9_boundary_inclusive_witness :
    parseBlockTimes sampleBlock = some ((3 : ℚ)/2, (5 : ℚ)/2, [['h', 'i']]) ∧
    (3 : ℚ)/2 ≤ (5 : ℚ)/2 ∧ ((5 : ℚ)/2 ≤ 3 ∧ (5 : ℚ)/2 = (5 : ℚ)/2) ∧
    extract_srt_segment [sampleBlock] ((5 : ℚ)/2) 3 ≠ [] ∧
    ((1 : ℚ) ≤ (3 : ℚ)/2 ∧ (3 : ℚ)/2 = (3 : ℚ)/2) ∧
    extract_srt_segment [sampleBlock] 1 ((3 : ℚ)/2) ≠ [] :=
  ⟨parseBlockTimes_sampleBlock, by norm_num, ⟨by norm_num, rfl⟩,
    c9_boundary_inclusive.2.1 sampleBlock ((3 : ℚ)/2) ((5 : ℚ)/2) [['h', 'i']] ((5 : ℚ)/2) 3
      parseBlockTimes_sampleBlock (by norm_num) (by norm_num) rfl,
    ⟨by norm_num, rfl⟩,
    c9_boundary_inclusive.2.2 sampleBlock ((3 : ℚ)/2) ((5 : ℚ)/2) [['h', 'i']] 1 ((3 : ℚ)/2)
      parseBlockTimes_sampleBlock (by norm_num) (by norm_num) rfl⟩

/-! ## C4, part 1: every valid time string parses to a nonnegative value -/

theorem splitChar_ne_nil (sep : Char) (l : Str) : splitChar sep l ≠ [] := by
  cases l with
  | nil => simp [splitChar]
  | cons c rest =>
    unfold splitChar
    by_cases h : c = sep
    · simp [h]
    · rw [if_neg h]
      cases splitChar sep rest <;> simp

theorem splitChar_singleton (sep : Char) (t p : Str) (h : splitChar sep t = [p]) :
    p = t := by
  induction t generalizing p with
  | nil =>
    unfold splitChar at h
    injection h with h1 h2
    exact h1.symm
  | cons c rest ih =>
    unfold splitChar at h
    by_cases hc : c = sep
    · rw [if_pos hc] at h
      injection h with h1 h2
      exact absurd h2 (splitChar_ne_nil sep rest)
    · rw [if_neg hc] at h
      rcases e : splitChar sep rest with _ | ⟨r0, rs⟩
      · exact absurd e (splitChar_ne_nil sep rest)
      · rw [e] at h
        injection h with h1 h2
        subst h2
        rw [← h1, ih r0 e]

theorem splitChar_replaceComma (t : Str) :
    splitChar ':' (replaceComma t) = (splitChar ':' t).map replaceComma := by
  induction t with
  | nil => rfl
  | cons c rest ih =>
    rw [replaceComma_cons]
    by_cases h : c = ':'
    · subst h
      rw [if_neg (by decide)]
      unfold splitChar
      rw [if_pos rfl, if_pos rfl, ih]
      rfl
    · have hrc : ¬ (if c = ',' then '.' else c) = ':' := by
        by_cases hc : c = ','
        · rw [if_pos hc]; decide
        · rw [if_neg hc]; exact h
      unfold splitChar
      rw [if_neg h, if_neg hrc, ih]
      rcases e : splitChar ':' rest with _ | ⟨r0, rs⟩
      · exact absurd e (splitChar_ne_nil ':' rest)
      · rw [List.map_cons]
        rfl

theorem numTok_cases (c : Str) (h : numTok c = true) :
    digitsNE c = true ∨
    ∃ d1 sep d2, digitsNE d1 = true ∧ (sep = '.' ∨ sep = ',') ∧ digitsNE d2 = true ∧
      c = d1 ++ sep :: d2 := by
  unfold numTok at h
  rcases e : c.dropWhile Char.isDigit with _ | ⟨s0, rest⟩ <;> rw [e] at h
  · left
    have hc : c = c.takeWhile Char.isDigit := by
      conv_lhs => rw [← List.takeWhile_append_dropWhile (p := Char.isDigit) (l := c)]
      rw [e, List.append_nil]
    rw [hc]
    exact h
  · right
    rw [Bool.and_eq_true, Bool.and_eq_true] at h
    refine ⟨c.takeWhile Char.isDigit, s0, rest, h.1.1, ?_, h.2, ?_⟩
    · rcases Bool.or_eq_true _ _ |>.mp h.1.2 with h0 | h0
      · exact Or.inl (by simpa using h0)
      · exact Or.inr (by simpa using h0)
    · conv_lhs => rw [← List.takeWhile_append_dropWhile (p := Char.isDigit) (l := c)]
      rw [e]

theorem replaceComma_numTok (d1 d2 : Str) (sep : Char)
    (h1 : digitsNE d1 = true) (h2 : digitsNE d2 = true) (hsep : sep = '.' ∨ sep = ',') :
    replaceComma (d1 ++ sep :: d2) = d1 ++ '.' :: d2 := by
  rw [replaceComma_append, replaceComma_cons,
    replaceComma_digits d1 (digitsNE_all_digits d1 h1).2,
    replaceComma_digits d2 (digitsNE_all_digits d2 h2).2]
  rcases hsep with rfl | rfl
  · rw [if_neg (by decide)]
  · rw [if_pos rfl]

theorem numTok_float (c : Str) (h : numTok c = true) :
    ∃ v, pyFloat (replaceComma c) = some v ∧ 0 ≤ v := by
  rcases numTok_cases c h with hd | ⟨d1, sep, d2, h1, hsep, h2, rfl⟩
  · refine ⟨(digitsVal c : ℚ), ?_, by positivity⟩
    rw [replaceComma_digits c (digitsNE_all_digits c hd).2]
    exact pyFloat_digits c hd
  · refine ⟨(digitsVal d1 : ℚ) + (digitsVal d2 : ℚ) / (10 : ℚ) ^ d2.length, ?_,
      by positivity⟩
    rw [replaceComma_numTok d1 d2 sep h1 h2 hsep]
    exact pyFloat_frac d1 d2 h1 h2

theorem applyExp_comma (m : ℚ) (r : Str) : applyExp m (',' :: r) = Option.none := by
  simp [applyExp]

theorem pyFloat_comma_none (d1 d2 : Str) (h1 : digitsNE d1 = true)
    (h2 : digitsNE d2 = true) : pyFloat (d1 ++ ',' :: d2) = Option.none := by
  obtain ⟨h1ne, h1all⟩ := digitsNE_all_digits d1 h1
  obtain ⟨h2ne, h2all⟩ := digitsNE_all_digits d2 h2
  have hsp : ∀ x ∈ d1 ++ ',' :: d2, isPySpace x = false := by
    intro x hx
    rcases List.mem_append.mp hx with hx | hx
    · exact isPySpace_of_digit x (h1all x hx)
    rcases List.mem_cons.mp hx with rfl | hx
    · decide
    · exact isPySpace_of_digit x (h2all x hx)
  unfold pyFloat
  rw [stripWs_eq_self _ hsp]
  cases d1 with
  | nil => exact absurd rfl h1ne
  | cons x rest =>
    have hxd := h1all x (by simp)
    rw [List.cons_append, pySignedFloat,
      if_neg (isDigit_ne x '-' hxd (by decide)),
      if_neg (isDigit_ne x '+' hxd (by decide)),
      ← List.cons_append]
    obtain ⟨htake, hdrop⟩ :=
      takeWhile_append_cons Char.isDigit (x :: rest) ',' d2 h1all (by decide)
    unfold pyFloatMag
    simp only [htake, hdrop]
    rw [if_neg (by simp)]
    exact applyExp_comma _ d2

theorem numTok_pyFloat_nonneg (c : Str) (h : numTok c = true) (v : ℚ)
    (hv : pyFloat c = some v) : 0 ≤ v := by
  rcases numTok_cases c h with hd | ⟨d1, sep, d2, h1, hsep, h2, rfl⟩
  · rw [pyFloat_digits c hd, Option.some.injEq] at hv
    rw [← hv]
    positivity
  · rcases hsep with rfl | rfl
    · rw [pyFloat_frac d1 d2 h1 h2, Option.some.injEq] at hv
      rw [← hv]
      positivity
    · rw [pyFloat_comma_none d1 d2 h1 h2] at hv
      exact absurd hv (by simp)

/-- Every valid time string parses without raising, to a nonnegative
number of seconds. -/
theorem validTime_parses (t : Str) (h : validTimeB t = true) :
    ∃ x, time_to_seconds t = some x ∧ 0 ≤ x := by
  unfold validTimeB at h
  unfold time_to_seconds
  rw [splitChar_replaceComma]
  rcases hsp : splitChar ':' t with _ | ⟨p1, _ | ⟨p2, _ | ⟨p3, _ | ⟨p4, ps⟩⟩⟩⟩ <;>
    rw [hsp] at h
  · exact absurd h (by simp)
  · -- bare number
    have ht : p1 = t := splitChar_singleton ':' t p1 hsp
    subst ht
    rw [List.map_cons, List.map_nil]
    rcases e : pyFloat p1 with _ | v
    · exact ⟨0, rfl, le_refl 0⟩
    · exact ⟨v, rfl, numTok_pyFloat_nonneg p1 h v e⟩
  · -- MM:SS
    rw [Bool.and_eq_true] at h
    have hm : replaceComma p1 = p1 :=
      replaceComma_digits p1 (digitsNE_all_digits p1 h.1).2
    obtain ⟨v, hv, hv0⟩ := numTok_float p2 h.2
    refine ⟨(digitsVal p1 : ℚ) * 60 + v, ?_, ?_⟩
    · rw [List.map_cons, List.map_cons, List.map_nil, hm]
      simp [pyInt_digits p1 h.1, hv, Bind.bind, Option.bind]
    · have h0 : (0 : ℚ) ≤ (digitsVal p1 : ℚ) * 60 := by positivity
      linarith
  · -- HH:MM:SS
    rw [Bool.and_eq_true, Bool.and_eq_true] at h
    have ha : replaceComma p1 = p1 :=
      replaceComma_digits p1 (digitsNE_all_digits p1 h.1.1).2
    have hb : replaceComma p2 = p2 :=
      replaceComma_digits p2 (digitsNE_all_digits p2 h.1.2).2
    obtain ⟨v, hv, hv0⟩ := numTok_float p3 h.2
    refine ⟨(digitsVal p1 : ℚ) * 3600 + (digitsVal p2 : ℚ) * 60 + v, ?_, ?_⟩
    · rw [List.map_cons, List.map_cons, List.map_cons, List.map_nil, ha, hb]
      simp [pyInt_digits p1 h.1.1, pyInt_digits p2 h.1.2, hv, Bind.bind, Option.bind]
    · have h0 : (0 : ℚ) ≤ (digitsVal p1 : ℚ) * 3600 + (digitsVal p2 : ℚ) * 60 := by
        positivity
      linarith
  · exact absurd h (by simp)

/-! ## C4, part 2: decimal formatting of naturals -/

theorem digitCharM_spec (d : ℕ) (hd : d < 10) :
    (digitCharM d).isDigit = true ∧ digitVal (digitCharM d) = d := by
  interval_cases d <;> exact ⟨by decide, by decide⟩

theorem digitsVal_append_singleton (l : Str) (c : Char) :
    digitsVal (l ++ [c]) = 10 * digitsVal l + digitVal c := by
  unfold digitsVal
  rw [List.foldl_append]
  rfl

theorem natToStrAux_spec : ∀ fuel n : ℕ, n < fuel →
    natToStrAux fuel n ≠ [] ∧ (∀ c ∈ natToStrAux fuel n, c.isDigit = true) ∧
      digitsVal (natToStrAux fuel n) = n := by
  intro fuel
  induction fuel with
  | zero => intro n h; exact absurd h (by omega)
  | succ f ih =>
    intro n h
    unfold natToStrAux
    by_cases h10 : n < 10
    · rw [if_pos h10]
      obtain ⟨hd, hv⟩ := digitCharM_spec n h10
      refine ⟨by simp, ?_, ?_⟩
      · intro c hc
        rw [List.mem_singleton] at hc
        subst hc
        exact hd
      · show 10 * 0 + digitVal (digitCharM n) = n
        rw [hv]
        omega
    · rw [if_neg h10]
      have hlt : n / 10 < n := Nat.div_lt_self (by omega) (by norm_num)
      obtain ⟨hne, hall, hval⟩ := ih (n / 10) (by omega)
      obtain ⟨hd, hv⟩ := digitCharM_spec (n % 10) (Nat.mod_lt n (by norm_num))
      refine ⟨by simp, ?_, ?_⟩
      · intro c hc
        rcases List.mem_append.mp hc with hc | hc
        · exact hall c hc
        · rw [List.mem_singleton] at hc
          subst hc
          exact hd
      · rw [digitsVal_append_singleton, hval, hv]
        omega

theorem natToStr_spec (n : ℕ) :
    natToStr n ≠ [] ∧ (∀ c ∈ natToStr n, c.isDigit = true) ∧
      digitsVal (natToStr n) = n :=
  natToStrAux_spec (n + 1) n (by omega)

theorem digitsVal_replicate_zero (k : ℕ) (l : Str) :
    digitsVal (List.replicate k '0' ++ l) = digitsVal l := by
  induction k with
  | zero => rfl
  | succ m ih =>
    rw [List.replicate_succ, List.cons_append]
    show List.foldl (fun a c => 10 * a + digitVal c) (10 * 0 + digitVal '0')
      (List.replicate m '0' ++ l) = digitsVal l
    rw [show 10 * 0 + digitVal '0' = 0 from by decide]
    exact ih

theorem digitsVal_padZeros (w : ℕ) (l : Str) :
    digitsVal (padZeros w l) = digitsVal l :=
  digitsVal_replicate_zero _ l

theorem digitsNE_padZeros_natToStr (w n : ℕ) :
    digitsNE (padZeros w (natToStr n)) = true := by
  obtain ⟨hne, hall, _⟩ := natToStr_spec n
  unfold digitsNE padZeros
  rw [Bool.and_eq_true, List.all_eq_true]
  constructor
  · rw [isEmpty_false_of_ne_nil _
      (fun hnil => hne (List.append_eq_nil.mp hnil).2)]
    rfl
  · intro c hc
    rcases List.mem_append.mp hc with hc | hc
    · rw [List.eq_of_mem_replicate hc]
      decide
    · exact hall c hc

theorem natToStrAux_length_le : ∀ fuel n k : ℕ, n < fuel → 1 ≤ k → n < 10 ^ k →
    (natToStrAux fuel n).length ≤ k := by
  intro fuel
  induction fuel with
  | zero => intro n k h; exact absurd h (by omega)
  | succ f ih =>
    intro n k hnf hk hnk
    unfold natToStrAux
    by_cases h10 : n < 10
    · rw [if_pos h10]
      simpa using hk
    · rw [if_neg h10]
      have hk2 : 2 ≤ k := by
        by_contra hlt
        have hk1 : k = 1 := by omega
        subst hk1
        norm_num at hnk
        omega
      have hlt : n / 10 < n := Nat.div_lt_self (by omega) (by norm_num)
      have hdiv : n / 10 < 10 ^ (k - 1) := by
        rw [Nat.div_lt_iff_lt_mul (by norm_num)]
        have hpow : 10 ^ (k - 1) * 10 = 10 ^ k := by
          rw [← pow_succ]
          congr 1
          omega
        rw [hpow]
        exact hnk
      have := ih (n / 10) (k - 1) (by omega) (by omega) hdiv
      rw [List.length_append]
      simp only [List.length_singleton]
      omega

theorem natToStr_length_le (n k : ℕ) (hk : 1 ≤ k) (h : n < 10 ^ k) :
    (natToStr n).length ≤ k :=
  natToStrAux_length_le (n + 1) n k (by omega) hk h

theorem padZeros_length (w : ℕ) (l : Str) (h : l.length ≤ w) :
    (padZeros w l).length = w := by
  unfold padZeros
  rw [List.length_append, List.length_replicate]
  omega

/-- Parsing back the exact string shape `seconds_to_srt_time` produces,
for nonnegative components. -/
theorem parse_srt_format (H M S MS : ℕ) (hMS : MS < 1000) :
    time_to_seconds (padZeros 2 (natToStr H) ++ ':' :: padZeros 2 (natToStr M)
        ++ ':' :: padZeros 2 (natToStr S) ++ ',' :: padZeros 3 (natToStr MS)) =
      some ((H : ℚ) * 3600 + (M : ℚ) * 60 + ((S : ℚ) + (MS : ℚ) / 1000)) := by
  have hlen3 : (padZeros 3 (natToStr MS)).length = 3 :=
    padZeros_length 3 _ (natToStr_length_le MS 3 (by norm_num) (by norm_num; omega))
  rw [time_to_seconds_timeShape _ _ _ _ ',' (Or.inr rfl)
      (digitsNE_padZeros_natToStr 2 H) (digitsNE_padZeros_natToStr 2 M)
      (digitsNE_padZeros_natToStr 2 S) (digitsNE_padZeros_natToStr 3 MS),
    digitsVal_padZeros, digitsVal_padZeros, digitsVal_padZeros, digitsVal_padZeros,
    (natToStr_spec H).2.2, (natToStr_spec M).2.2, (natToStr_spec S).2.2,
    (natToStr_spec MS).2.2, hlen3]
  norm_num

/-! ## C4, part 3: the round-trip through `seconds_to_srt_time` -/

theorem truncQ_intCast (n : ℤ) : truncQ ((n : ℤ) : ℚ) = n := by
  unfold truncQ
  by_cases h : (0 : ℚ) ≤ (n : ℚ)
  · rw [if_pos h, Int.floor_intCast]
  · rw [if_neg h, Int.ceil_intCast]

theorem truncQ_of_nonneg (q : ℚ) (h : 0 ≤ q) : truncQ q = ⌊q⌋ := if_pos h

/-- Formatting a nonnegative number of seconds and parsing the result
back truncates it to millisecond precision. -/
theorem roundtrip_floor (x : ℚ) (hx : 0 ≤ x) :
    time_to_seconds (seconds_to_srt_time x) = some ((⌊1000 * x⌋ : ℚ) / 1000) := by
  have hble1 : ((⌊x / 3600⌋ : ℤ) : ℚ) ≤ x / 3600 := Int.floor_le _
  have hble2 : ((⌊x / 60⌋ : ℤ) : ℚ) ≤ x / 60 := Int.floor_le _
  have hble3 : ((⌊x⌋ : ℤ) : ℚ) ≤ x := Int.floor_le x
  have hub : x < ((⌊x⌋ : ℤ) : ℚ) + 1 := Int.lt_floor_add_one x
  have hq0 : 0 ≤ ⌊x / 3600⌋ := Int.floor_nonneg.mpr (by positivity)
  have e_mfloor : ⌊(x - 3600 * ((⌊x / 3600⌋ : ℤ) : ℚ)) / 60⌋ =
      ⌊x / 60⌋ - 60 * ⌊x / 3600⌋ := by
    rw [show (x - 3600 * ((⌊x / 3600⌋ : ℤ) : ℚ)) / 60 =
        x / 60 - ((60 * ⌊x / 3600⌋ : ℤ) : ℚ) from by push_cast; ring,
      Int.floor_sub_int]
  have hm0 : 0 ≤ ⌊x / 60⌋ - 60 * ⌊x / 3600⌋ := by
    rw [← e_mfloor]
    apply Int.floor_nonneg.mpr
    have h1 : 3600 * ((⌊x / 3600⌋ : ℤ) : ℚ) ≤ x := by linarith
    linarith
  have e_hours : truncQ (qfdiv x 3600) = ⌊x / 3600⌋ := truncQ_intCast _
  have e_min : truncQ (qfdiv (qfmod x 3600) 60) = ⌊x / 60⌋ - 60 * ⌊x / 3600⌋ := by
    unfold qfmod qfdiv
    rw [truncQ_intCast]
    exact e_mfloor
  have e_s : qfmod x 60 = x - 60 * ((⌊x / 60⌋ : ℤ) : ℚ) := rfl
  have hs0 : (0 : ℚ) ≤ qfmod x 60 := by
    rw [e_s]
    have h1 : 60 * ((⌊x / 60⌋ : ℤ) : ℚ) ≤ x := by linarith
    linarith
  have e_si : truncQ (qfmod x 60) = ⌊x⌋ - 60 * ⌊x / 60⌋ := by
    rw [truncQ_of_nonneg _ hs0, e_s,
      show x - 60 * ((⌊x / 60⌋ : ℤ) : ℚ) = x - ((60 * ⌊x / 60⌋ : ℤ) : ℚ) from by
        push_cast; ring,
      Int.floor_sub_int]
  have hsi0 : 0 ≤ ⌊x⌋ - 60 * ⌊x / 60⌋ := by
    rw [← e_si, truncQ_of_nonneg _ hs0]
    exact Int.floor_nonneg.mpr hs0
  have e_ms : truncQ ((qfmod x 60 - ((truncQ (qfmod x 60) : ℤ) : ℚ)) * 1000) =
      ⌊1000 * x⌋ - 1000 * ⌊x⌋ := by
    rw [e_si, e_s,
      show (x - 60 * ((⌊x / 60⌋ : ℤ) : ℚ) - ((⌊x⌋ - 60 * ⌊x / 60⌋ : ℤ) : ℚ)) * 1000 =
        1000 * x - ((1000 * ⌊x⌋ : ℤ) : ℚ) from by push_cast; ring,
      truncQ_of_nonneg _ (by push_cast; linarith), Int.floor_sub_int]
  have hms0 : 0 ≤ ⌊1000 * x⌋ - 1000 * ⌊x⌋ := by
    have h1 : ((1000 * ⌊x⌋ : ℤ) : ℚ) ≤ 1000 * x := by push_cast; linarith
    have h2 : (1000 : ℤ) * ⌊x⌋ ≤ ⌊1000 * x⌋ := Int.le_floor.mpr h1
    omega
  have hms1000 : ⌊1000 * x⌋ - 1000 * ⌊x⌋ < 1000 := by
    have h1 : ⌊1000 * x⌋ < 1000 * ⌊x⌋ + 1000 := by
      apply Int.floor_lt.mpr
      push_cast
      linarith
    omega
  have hfmt : seconds_to_srt_time x =
      padZeros 2 (natToStr (⌊x / 3600⌋).toNat) ++
      ':' :: padZeros 2 (natToStr (⌊x / 60⌋ - 60 * ⌊x / 3600⌋).toNat) ++
      ':' :: padZeros 2 (natToStr (⌊x⌋ - 60 * ⌊x / 60⌋).toNat) ++
      ',' :: padZeros 3 (natToStr (⌊1000 * x⌋ - 1000 * ⌊x⌋).toNat) := by
    show pyFmtD 2 (truncQ (qfdiv x 3600)) ++
      ':' :: pyFmtD 2 (truncQ (qfdiv (qfmod x 3600) 60)) ++
      ':' :: pyFmtD 2 (truncQ (qfmod x 60)) ++
      ',' :: pyFmtD 3 (truncQ ((qfmod x 60 - ((truncQ (qfmod x 60) : ℤ) : ℚ)) * 1000)) = _
    rw [e_ms, e_si, e_min, e_hours]
    unfold pyFmtD
    rw [if_neg (not_lt.mpr hq0), if_neg (not_lt.mpr hm0), if_neg (not_lt.mpr hsi0),
      if_neg (not_lt.mpr hms0)]
  have hmsNat : (⌊1000 * x⌋ - 1000 * ⌊x⌋).toNat < 1000 := by omega
  rw [hfmt, parse_srt_format _ _ _ _ hmsNat]
  congr 1
  have c1 : (((⌊x / 3600⌋).toNat : ℕ) : ℚ) = ((⌊x / 3600⌋ : ℤ) : ℚ) := by
    exact_mod_cast congrArg (fun z : ℤ => (z : ℚ)) (Int.toNat_of_nonneg hq0)
  have c2 : (((⌊x / 60⌋ - 60 * ⌊x / 3600⌋).toNat : ℕ) : ℚ) =
      ((⌊x / 60⌋ : ℤ) : ℚ) - 60 * ((⌊x / 3600⌋ : ℤ) : ℚ) := by
    have := congrArg (fun z : ℤ => (z : ℚ)) (Int.toNat_of_nonneg hm0)
    push_cast at this ⊢
    linarith [this]
  have c3 : (((⌊x⌋ - 60 * ⌊x / 60⌋).toNat : ℕ) : ℚ) =
      ((⌊x⌋ : ℤ) : ℚ) - 60 * ((⌊x / 60⌋ : ℤ) : ℚ) := by
    have := congrArg (fun z : ℤ => (z : ℚ)) (Int.toNat_of_nonneg hsi0)
    push_cast at this ⊢
    linarith [this]
  have c4 : (((⌊1000 * x⌋ - 1000 * ⌊x⌋).toNat : ℕ) : ℚ) =
      ((⌊1000 * x⌋ : ℤ) : ℚ) - 1000 * ((⌊x⌋ : ℤ) : ℚ) := by
    have := congrArg (fun z : ℤ => (z : ℚ)) (Int.toNat_of_nonneg hms0)
    push_cast at this ⊢
    linarith [this]
  rw [c1, c2, c3, c4]
  ring

/-! ## C4: the parse/format round-trip -/

/-- C4 counterexample: the composition does not reproduce the moment
denoted by every valid time string.  `"3,5"` is in a supported format (a
bare number of seconds with a comma fraction separator) and denotes the
moment 3.5 s (parsing after the spec's comma normalization gives `7/2`),
but the code's bare-number branch applies `float()` to the un-normalized
string, so `time_to_seconds "3,5"` is `0.0`; the full composition then
yields `0.000`, not 3.5 truncated to milliseconds (`⌊1000 · 7/2⌋ / 1000 =
7/2`). -/
theorem c4_counterexample :
    validTimeB ['3', ',', '5'] = true ∧
    denotedMoment ['3', ',', '5'] = some ((7 : ℚ)/2) ∧
    time_to_seconds ['3', ',', '5'] = some 0 ∧
    time_to_seconds (seconds_to_srt_time 0) = some 0 ∧
    (0 : ℚ) ≠ ((⌊1000 * ((7 : ℚ)/2)⌋ : ℤ) : ℚ) / 1000 := by
  refine ⟨by decide, ?_, by decide, ?_, ?_⟩
  · show time_to_seconds (replaceComma ['3', ',', '5']) = some ((7 : ℚ)/2)
    rw [show replaceComma ['3', ',', '5'] = ['3', '.', '5'] from rfl]
    unfold time_to_seconds
    rw [show splitChar ':' (replaceComma ['3', '.', '5']) = [['3', '.', '5']] from rfl]
    show (match pyFloat ['3', '.', '5'] with
      | some v => some v
      | Option.none => some 0) = some ((7 : ℚ)/2)
    rw [show (['3', '.', '5'] : Str) = ['3'] ++ '.' :: ['5'] from rfl,
      pyFloat_frac ['3'] ['5'] (by decide) (by decide),
      show digitsVal ['3'] = 3 from by decide,
      show digitsVal ['5'] = 5 from by decide]
    norm_num
  · simpa using roundtrip_floor 0 (le_refl 0)
  · rw [show (1000 : ℚ) * ((7 : ℚ)/2) = ((3500 : ℤ) : ℚ) from by norm_num,
      Int.floor_intCast]
    norm_num

/-- C4 (amended): for every valid time string `t` in one of the three
supported formats, `time_to_seconds t` succeeds with a nonnegative value
`x`, and `time_to_seconds (seconds_to_srt_time x)` reproduces `x` up to
truncation of the fractional part to 3 digits (`⌊1000 x⌋ / 1000`) — the
composition reproduces the value the first parse produced, to millisecond
precision.  It does not always reproduce the moment denoted by `t`: as
the counterexample shows, a bare number with a comma fraction separator
parses to `0.0`. -/
theorem c4_parse_format_roundtrip (t : Str) (h : validTimeB t = true) :
    ∃ x, time_to_seconds t = some x ∧ 0 ≤ x ∧
      time_to_seconds (seconds_to_srt_time x) = some ((⌊1000 * x⌋ : ℚ) / 1000) := by
  obtain ⟨x, hx, hx0⟩ := validTime_parses t h
  exact ⟨x, hx, hx0, roundtrip_floor x hx0⟩

theorem c4_parse_format_roundtrip_witness :
    validTimeB ['1', ':', '0', '2', ':', '0', '3', '.', '5'] = true ∧
    ∃ x, time_to_seconds ['1', ':', '0', '2', ':', '0', '3', '.', '5'] = some x ∧
      0 ≤ x ∧
      time_to_seconds (seconds_to_srt_time x) = some ((⌊1000 * x⌋ : ℚ) / 1000) :=
  ⟨by decide,
    c4_parse_format_roundtrip ['1', ':', '0', '2', ':', '0', '3', '.', '5'] (by decide)⟩

end Clipod
